import Mathlib

/-!
Verification development for the Eddie NSGA-II front-end core.

The repository's two algorithmic components are embedded shallowly:

* `src/Eddie/sort.cpp` — `dominates` and `fast_non_dominated_sort`
  (Pareto-dominance ranking).  The C++ code only ever *compares* objective
  values (`operator<` / `operator>` on `double`); it performs no arithmetic
  on them.  A `double` is therefore modelled by `FpVal`: either NaN (which
  compares false under both `<` and `>`, exactly as IEEE-754 and the spec's
  numeric-semantics paragraph describe) or a finite value, modelled
  exactly by a rational number.  Real-valued objective matrices are the
  images of rational matrices under `realRow`.

* `src/Eddie/initpop.cpp` — `latin_hypercube_population`.  Here the code
  does field arithmetic on coordinates, and coordinates are modelled by
  rationals (exact real arithmetic).  The standard-library random
  machinery (`std::mt19937`, `std::shuffle`,
  `std::uniform_real_distribution`) is not part of the repository; it is
  modelled by an abstract deterministic state machine `RngModel` whose
  contracts (`shuffle` produces a permutation of its input, the unit
  distribution produces a value in `[0,1)`) are stated as predicates.

Stateful C++ loops become explicit state-passing recursions; `throw`
becomes `Except.error` carrying the exact C++ message string; the one
unbounded `while` loop is given explicit fuel together with a proof that
the fuel bound is never reached.
-/

/-! ## Values: C++ `double` under comparison only -/

/-- A C++ `double` as far as the ranker can observe it: NaN, or a finite
value (finite doubles are modelled exactly by rationals). -/
inductive FpVal where
  | nan : FpVal
  | fin : ℚ → FpVal
deriving DecidableEq

/-- C++ `<` on doubles: false whenever either side is NaN. -/
def fpLt (a b : FpVal) : Bool :=
  match a, b with
  | .fin x, .fin y => decide (x < y)
  | _, _ => false

/-- C++ `>` on doubles. -/
def fpGt (a b : FpVal) : Bool := fpLt b a

/-- A real-valued (NaN-free) objective row, as an `FpVal` row. -/
def realRow (l : List ℚ) : List FpVal := l.map .fin

abbrev Row := List FpVal

abbrev ObjMatrix := List Row

/-! ## `dominates` (src/Eddie/sort.cpp, lines 7–23) -/

/-- The comparison loop of `dominates`: walk the two rows in lock-step;
return `false` as soon as `lhs[i] > rhs[i]`; otherwise remember in the
`strictly_better` flag whether some `lhs[i] < rhs[i]` was seen. -/
def dominatesLoop : List FpVal → List FpVal → Bool → Bool
  | a :: as, b :: bs, strictlyBetter =>
      if fpGt a b then false
      else dominatesLoop as bs (strictlyBetter || fpLt a b)
  | _, _, strictlyBetter => strictlyBetter

/-- The C++ message of the shape-mismatch `std::invalid_argument`. -/
def shapeErrMsg : String :=
  "Objective vectors must have identical dimensions for comparison"

/-- The C++ message of the empty-first-front `std::runtime_error`. -/
def frontErrMsg : String :=
  "Non-dominated sorting failed: first front is empty"

/-- Function `dominates` from src/Eddie/sort.cpp: throws (modelled as
`Except.error`) on rows of differing length, otherwise runs the
comparison loop with the `strictly_better` flag initially false. -/
def dominates (lhs rhs : Row) : Except String Bool :=
  if lhs.length = rhs.length then .ok (dominatesLoop lhs rhs false)
  else .error shapeErrMsg

/-- Dominance as the spec words it for real-valued rows: everywhere `≤`
and somewhere `<` (all objectives minimized). -/
def ParetoDominates (u v : List ℚ) : Prop :=
  List.Forall₂ (· ≤ ·) u v ∧ ∃ k, k < u.length ∧ u.getD k 0 < v.getD k 0

/-! ## `fast_non_dominated_sort` (src/Eddie/sort.cpp, lines 26–95) -/

/-- Result struct from src/Eddie/sort.h. -/
structure NonDominatedSortResult where
  fronts : List (List ℕ)
  ranks : List ℕ
deriving DecidableEq

/-- Row access `objectives[p]` (list indexing; all accesses in the algorithm are in
bounds, out-of-range reads default to the empty row). -/
def getRow (obj : ObjMatrix) (p : ℕ) : Row := obj.getD p []

/-- Inner `q` loop of the pairwise phase for a fixed `p`: skip `q = p`;
if `p` dominates `q`, append `q` to `p`'s dominated-set row; else if `q`
dominates `p`, bump `p`'s domination count.  Exceptions from `dominates`
propagate. -/
def pairScan (obj : ObjMatrix) (p : ℕ) : List ℕ → Except String (List ℕ × ℕ)
  | [] => .ok ([], 0)
  | q :: qs =>
      if p = q then pairScan obj p qs
      else
        match dominates (getRow obj p) (getRow obj q) with
        | .error e => .error e
        | .ok true =>
            match pairScan obj p qs with
            | .error e => .error e
            | .ok (s, c) => .ok (q :: s, c)
        | .ok false =>
            match dominates (getRow obj q) (getRow obj p) with
            | .error e => .error e
            | .ok d2 =>
                match pairScan obj p qs with
                | .error e => .error e
                | .ok (s, c) => .ok (s, if d2 then c + 1 else c)

/-- Outer `p` loop of the pairwise phase: builds `dominates_set` and
`domination_count` in index order.  (The C++ body also re-assigns
`ranks[p] = 0` when the count is zero, a no-op since ranks start at 0.) -/
def buildPhase (obj : ObjMatrix) : List ℕ → Except String (List (List ℕ) × List ℕ)
  | [] => .ok ([], [])
  | p :: ps =>
      match pairScan obj p (List.range obj.length) with
      | .error e => .error e
      | .ok (row, cnt) =>
          match buildPhase obj ps with
          | .error e => .error e
          | .ok (sets, cnts) => .ok (row :: sets, cnt :: cnts)

/-- The innermost propagation loop: walk one dominated-set row.  A count
that is already zero is skipped; otherwise it is decremented, and on
reaching zero the candidate gets the next rank and joins the next
front. -/
def processDominated (newRank : ℕ) :
    List ℕ → List ℕ → List ℕ → List ℕ → List ℕ × List ℕ × List ℕ
  | [], counts, ranks, nxt => (counts, ranks, nxt)
  | d :: ds, counts, ranks, nxt =>
      if counts.getD d 0 = 0 then
        processDominated newRank ds counts ranks nxt
      else
        let c := counts.getD d 0 - 1
        if c = 0 then
          processDominated newRank ds (counts.set d c) (ranks.set d newRank) (nxt ++ [d])
        else
          processDominated newRank ds (counts.set d c) ranks nxt

/-- Process every member of the current front in order. -/
def processFront (dset : List (List ℕ)) (newRank : ℕ) :
    List ℕ → List ℕ → List ℕ → List ℕ → List ℕ × List ℕ × List ℕ
  | [], counts, ranks, nxt => (counts, ranks, nxt)
  | i :: is, counts, ranks, nxt =>
      let step := processDominated newRank (dset.getD i []) counts ranks nxt
      processFront dset newRank is step.1 step.2.1 step.2.2

/-- The `while (current_rank < result.fronts.size())` loop, with explicit
fuel.  The fuel branch is proved unreachable below
(`whileLoop_ne_none`). -/
def whileLoop (dset : List (List ℕ)) :
    ℕ → List (List ℕ) → ℕ → List ℕ → List ℕ → Option (List (List ℕ) × List ℕ)
  | 0, _, _, _, _ => none
  | fuel + 1, fronts, currentRank, counts, ranks =>
      if currentRank < fronts.length then
        let step := processFront dset (currentRank + 1) (fronts.getD currentRank [])
          counts ranks []
        let fronts' := if step.2.2 = [] then fronts else fronts ++ [step.2.2]
        whileLoop dset fuel fronts' (currentRank + 1) step.1 step.2.1
      else
        some (fronts, ranks)

/-- Message of the (unreachable) fuel-exhaustion branch of the embedded
while loop; the C++ loop has no such exit. -/
def fuelErrMsg : String := "unreachable: propagation fuel exhausted"

/-- Function `fast_non_dominated_sort` from src/Eddie/sort.cpp. -/
def fast_non_dominated_sort (objectives : ObjMatrix) :
    Except String NonDominatedSortResult :=
  let n := objectives.length
  if n = 0 then .ok ⟨[], []⟩
  else
    match buildPhase objectives (List.range n) with
    | .error e => .error e
    | .ok (dset, dcount) =>
        let firstFront := (List.range n).filter (fun i => decide (dcount.getD i 0 = 0))
        if firstFront = [] then .error frontErrMsg
        else
          match whileLoop dset (dcount.sum + 2) [firstFront] 0 dcount
            (List.replicate n 0) with
          | some (fronts, ranks) => .ok ⟨fronts, ranks⟩
          | none => .error fuelErrMsg

/-- The dominance relation the ranker evaluates between candidate
indices. -/
def Dom (obj : ObjMatrix) (p q : ℕ) : Bool :=
  dominatesLoop (getRow obj p) (getRow obj q) false

/-- Number of candidates of `obj` that dominate candidate `p`. -/
def dominationCount (obj : ObjMatrix) (p : ℕ) : ℕ :=
  ((List.range obj.length).filter (fun q => Dom obj q p)).length

/-! ### Characterization of `processFront` -/

/-- Total number of times the members of `f` list candidate `i` in their
dominated-set rows: the number of decrements `i` receives while front `f`
is processed. -/
def decBy (dset : List (List ℕ)) (f : List ℕ) (i : ℕ) : ℕ :=
  (f.map (fun q => (dset.getD q []).count i)).sum

/-! ### The data handed to the propagation loop -/

/-- What `buildPhase` over `List.range obj.length` guarantees about the
`dominates_set` and `domination_count` arrays. -/
structure PhaseOut (obj : ObjMatrix) (dset : List (List ℕ)) (dcount : List ℕ) : Prop where
  dset_len : dset.length = obj.length
  dcount_len : dcount.length = obj.length
  dset_row : ∀ p, p < obj.length →
    dset.getD p [] = (List.range obj.length).filter
      (fun q => decide (p ≠ q) && Dom obj p q)
  dcount_at : ∀ p, p < obj.length → dcount.getD p 0 = dominationCount obj p

/-! ### The propagation-loop invariant -/

/-- State invariant of the `while` loop of `fast_non_dominated_sort`,
taken at the top of each iteration: `F` the fronts built so far, `cr` the
current rank, `c` the live domination counts, `rk` the live ranks. -/
structure LoopInv (obj : ObjMatrix) (dset : List (List ℕ))
    (F : List (List ℕ)) (cr : ℕ) (c rk : List ℕ) : Prop where
  c_len : c.length = obj.length
  rk_len : rk.length = obj.length
  cr_le : cr ≤ F.length
  len_le : F.length ≤ cr + 1
  join_nodup : F.join.Nodup
  join_lt : ∀ i ∈ F.join, i < obj.length
  counts : ∀ i, i < obj.length →
    c.getD i 0 + decBy dset ((F.take cr).join) i = dominationCount obj i
  mem_iff : ∀ i, i < obj.length → (i ∈ F.join ↔ c.getD i 0 = 0)
  ranks : ∀ k, k < F.length → ∀ i ∈ F.getD k [], rk.getD i 0 = k
  earlier : ∀ k, k < F.length → ∀ i ∈ F.getD k [], ∀ j, j < obj.length →
    Dom obj j i = true → j ∈ (F.take k).join
  witnessed : ∀ k, 0 < k → k < F.length → ∀ i ∈ F.getD k [],
    ∃ j ∈ F.getD (k - 1) [], Dom obj j i = true

instance : DecidableEq (Except String NonDominatedSortResult) :=
  fun a b =>
    match a, b with
    | .ok x, .ok y =>
        if h : x = y then isTrue (by rw [h]) else
          isFalse (fun hc => h (Except.ok.inj hc))
    | .error e, .error f =>
        if h : e = f then isTrue (by rw [h]) else
          isFalse (fun hc => h (Except.error.inj hc))
    | .ok _, .error _ => isFalse (fun hc => Except.noConfusion hc)
    | .error _, .ok _ => isFalse (fun hc => Except.noConfusion hc)

/-- Three candidates whose NaN pattern makes the ranker's dominance
relation cyclic (0 beats 1, 1 beats 2, 2 beats 0), exercising the spec's
NaN comparison semantics: every domination count is positive. -/
def nanCycle : ObjMatrix :=
  [[.fin 0, .nan, .fin 1], [.fin 1, .fin 0, .nan], [.nan, .fin 1, .fin 0]]

/-- The cycle plus one all-NaN row that neither dominates nor is
dominated: front 0 is `[3]` and candidates 0, 1, 2 can never be peeled. -/
def nanCyclePlus : ObjMatrix :=
  [[.fin 0, .nan, .fin 1], [.fin 1, .fin 0, .nan], [.nan, .fin 1, .fin 0],
    [.nan, .nan, .nan]]

/-! ## `latin_hypercube_population` (src/Eddie/initpop.cpp) -/

/-- Structure `OptimizationParameters` from src/Eddie/parameter.h; `double` fields
are modelled as exact rationals, `std::size_t`/`unsigned` as `ℕ`. -/
structure OptimizationParameters where
  problem_name : String := ""
  population_size : ℕ := 100
  offspring_population_size : ℕ := 100
  max_generations : ℕ := 250
  crossover_probability : ℚ := 9/10
  mutation_probability : ℚ := 1/10
  distribution_index_crossover : ℚ := 15
  distribution_index_mutation : ℚ := 20
  crossover_distribution_index : ℚ := 15
  mutation_distribution_index : ℚ := 20
  random_seed : ℕ := 42
  variable_lower_bounds : List ℚ := []
  variable_upper_bounds : List ℚ := []
  objective_names : List String := []
  variable_names : List String := []

abbrev Individual := List ℚ

abbrev Population := List Individual

/-- Modelled from the spec: the random machinery (`std::mt19937`,
`std::shuffle`, `std::uniform_real_distribution`) is C++ standard-library
code, not part of this repository.  It is modelled as an abstract
deterministic state machine over a state type `σ`: `seed` builds the
engine from an integer seed, `shuffleFn` models `std::shuffle` applied to
a list of stratum indices, and `unitFn` models one draw from
`uniform_real_distribution(0.0, 1.0)`. -/
structure RngModel (σ : Type) where
  seed : ℕ → σ
  shuffleFn : List ℕ → σ → List ℕ × σ
  unitFn : σ → ℚ × σ

/-- Contract of `std::shuffle`: the output is a permutation of the
input. -/
def ShuffleSpec {σ : Type} (M : RngModel σ) : Prop :=
  ∀ l g, (M.shuffleFn l g).1.Perm l

/-- Contract of `uniform_real_distribution(0.0, 1.0)`: each draw lies in
`[0, 1)`. -/
def UnitSpec {σ : Type} (M : RngModel σ) : Prop :=
  ∀ g, 0 ≤ (M.unitFn g).1 ∧ (M.unitFn g).1 < 1

/-- Dimension derivation (initpop.cpp lines 10–13). -/
def lhcDimension (params : OptimizationParameters) : ℕ :=
  if params.variable_names = [] then
    max params.variable_lower_bounds.length params.variable_upper_bounds.length
  else params.variable_names.length

/-- Inner candidate loop for one dimension (initpop.cpp lines 26–32):
draw a jitter, scale `(permutation[i] + jitter) / population_size` into
`[lower, upper)`, store it at `population[i][dim]`. -/
def innerFill {σ : Type} (M : RngModel σ) (lower upper : ℚ) (n : ℕ)
    (perm : List ℕ) (dim : ℕ) :
    List ℕ → Population → σ → Population × σ
  | [], pop, g => (pop, g)
  | i :: is, pop, g =>
      let ju := M.unitFn g
      let scaled : ℚ := ((perm.getD i 0 : ℚ) + ju.1) / (n : ℚ)
      let value := lower + scaled * (upper - lower)
      innerFill M lower upper n perm dim is
        (pop.set i ((pop.getD i []).set dim value)) ju.2

/-- Outer dimension loop (initpop.cpp lines 19–33): per-dimension bounds
with defaults 0.0 / 1.0 for missing entries, a fresh shuffled permutation
of `0..N-1`, then the inner loop. -/
def outerFill {σ : Type} (M : RngModel σ) (params : OptimizationParameters)
    (n : ℕ) : List ℕ → Population → σ → Population × σ
  | [], pop, g => (pop, g)
  | dim :: dims, pop, g =>
      let lower := params.variable_lower_bounds.getD dim 0
      let upper := params.variable_upper_bounds.getD dim 1
      let sh := M.shuffleFn (List.range n) g
      let filled := innerFill M lower upper n sh.1 dim (List.range n) pop sh.2
      outerFill M params n dims filled.1 filled.2

/-- The two-argument overload `latin_hypercube_population(params, rng)`;
the threaded `σ` models the by-reference `std::mt19937`. -/
def latin_hypercube_population {σ : Type} (M : RngModel σ)
    (params : OptimizationParameters) (g : σ) : Population × σ :=
  outerFill M params params.population_size (List.range (lhcDimension params))
    (List.replicate params.population_size
      (List.replicate (lhcDimension params) 0)) g

/-- The single-argument overload `latin_hypercube_population(params)`
(initpop.cpp lines 38–41): seeds a fresh engine from
`params.random_seed`. -/
def latin_hypercube_population1 {σ : Type} (M : RngModel σ)
    (params : OptimizationParameters) : Population :=
  (latin_hypercube_population M params (M.seed params.random_seed)).1

/-- A trivial concrete random source: identity shuffle, constant jitter
one half.  Satisfies both standard-library contracts. -/
def idRng : RngModel Unit where
  seed := fun _ => ()
  shuffleFn := fun l g => (l, g)
  unitFn := fun g => (1/2, g)

/-- Degenerate but spec-legal bounds (`lower[0] = upper[0] = 1`). -/
def degenerateParams : OptimizationParameters :=
  { population_size := 2, variable_lower_bounds := [1],
    variable_upper_bounds := [1] }

/-- Small non-degenerate sampler configuration for witnesses: two
candidates, one named variable, default bounds `[0, 1)`. -/
def unitBoxParams : OptimizationParameters :=
  { population_size := 2, variable_names := ["x"] }

/-- Parameters where one named variable beats the longer upper-bounds
array. -/
def namedDimParams : OptimizationParameters :=
  { population_size := 2, variable_names := ["x"],
    variable_upper_bounds := [2, 3] }

/-! ### Characterization of the comparison loop -/

theorem dominatesLoop_true_iff (as : List FpVal) :
    ∀ (bs : List FpVal) (sb : Bool),
    (dominatesLoop as bs sb = true ↔
      (∀ p ∈ as.zip bs, fpGt p.1 p.2 = false) ∧
        (sb = true ∨ ∃ p ∈ as.zip bs, fpLt p.1 p.2 = true)) := by
  induction as with
  | nil =>
      intro bs sb
      simp [dominatesLoop]
  | cons a as ih =>
      intro bs sb
      cases bs with
      | nil => simp [dominatesLoop]
      | cons b bs =>
          cases hgt : fpGt a b with
          | true =>
              simp only [dominatesLoop, hgt, if_true]
              constructor
              · intro h
                exact absurd h (by simp)
              · rintro ⟨hall, -⟩
                have := hall (a, b) (by simp)
                rw [hgt] at this
                exact absurd this (by simp)
          | false =>
              have hstep : dominatesLoop (a :: as) (b :: bs) sb =
                  dominatesLoop as bs (sb || fpLt a b) := by
                simp [dominatesLoop, hgt]
              rw [hstep, ih]
              constructor
              · rintro ⟨hall, hsb⟩
                refine ⟨?_, ?_⟩
                · intro p hp
                  rw [List.zip_cons_cons, List.mem_cons] at hp
                  rcases hp with rfl | hp
                  · exact hgt
                  · exact hall p hp
                · rcases hsb with hsb | ⟨p, hp, hplt⟩
                  · rcases (by simpa using hsb : sb = true ∨ fpLt a b = true) with h | h
                    · exact Or.inl h
                    · exact Or.inr ⟨(a, b), by simp, h⟩
                  · exact Or.inr ⟨p, by simp [hp], hplt⟩
              · rintro ⟨hall, hsb⟩
                refine ⟨fun p hp => hall p (by simp [hp]), ?_⟩
                rcases hsb with hsb | ⟨p, hp, hplt⟩
                · exact Or.inl (by simp [hsb])
                · rw [List.zip_cons_cons, List.mem_cons] at hp
                  rcases hp with rfl | hp
                  · exact Or.inl (by simp [hplt])
                  · exact Or.inr ⟨p, hp, hplt⟩

/-- The loop is reflexively false: a row never dominates itself (NaN rows
included). -/
theorem dominatesLoop_self (v : List FpVal) (sb : Bool) :
    dominatesLoop v v sb = sb := by
  induction v with
  | nil => rfl
  | cons a as ih =>
      have h1 : fpGt a a = false := by
        cases a with
        | nan => rfl
        | fin q => simp [fpGt, fpLt]
      have h2 : fpLt a a = false := by
        cases a with
        | nan => rfl
        | fin q => simp [fpLt]
      simp [dominatesLoop, h1, h2, ih]

/-- Swapping a zipped pair. -/
theorem mem_zip_swap {α β : Type} {p : α × β} {l₁ : List α} {l₂ : List β}
    (h : p ∈ l₁.zip l₂) : (p.2, p.1) ∈ l₂.zip l₁ := by
  rw [← List.zip_swap l₂ l₁] at h
  rcases List.mem_map.mp h with ⟨q, hq, rfl⟩
  simpa using hq

/-- Dominance is antisymmetric for arbitrary `FpVal` rows. -/
theorem dominatesLoop_antisymm {as bs : List FpVal}
    (h : dominatesLoop as bs false = true) :
    dominatesLoop bs as false = false := by
  rcases (dominatesLoop_true_iff as bs false).mp h with ⟨hall, hsb⟩
  rcases hsb with hf | ⟨p, hp, hplt⟩
  · exact absurd hf (by simp)
  cases hba : dominatesLoop bs as false with
  | false => rfl
  | true =>
      rcases (dominatesLoop_true_iff bs as false).mp hba with ⟨hall', -⟩
      have hgt := hall' (p.2, p.1) (mem_zip_swap hp)
      have : fpLt p.1 p.2 = false := hgt
      rw [hplt] at this
      exact absurd this (by simp)

/-- Exact characterization of the loop on equal-length real-valued rows,
with the flag generalized. -/
theorem dominatesLoop_real_char (u : List ℚ) :
    ∀ (v : List ℚ) (sb : Bool), u.length = v.length →
    (dominatesLoop (realRow u) (realRow v) sb = true ↔
      (List.Forall₂ (· ≤ ·) u v ∧
        (sb = true ∨ ∃ k, k < u.length ∧ u.getD k 0 < v.getD k 0))) := by
  induction u with
  | nil =>
      intro v sb hlen
      have hv : v = [] := List.length_eq_zero.mp hlen.symm
      subst hv
      simp [realRow, dominatesLoop]
  | cons a as ih =>
      intro v sb hlen
      cases v with
      | nil => exact absurd hlen (by simp)
      | cons b bs =>
          have hlen' : as.length = bs.length := by simpa using hlen
          have hgt : fpGt (FpVal.fin a) (FpVal.fin b) = decide (b < a) := rfl
          have hlt : fpLt (FpVal.fin a) (FpVal.fin b) = decide (a < b) := rfl
          by_cases hba : b < a
          · have : dominatesLoop (realRow (a :: as)) (realRow (b :: bs)) sb = false := by
              simp [realRow, dominatesLoop, hgt, hba]
            rw [this]
            simp only [Bool.false_eq_true, false_iff]
            rintro ⟨hf, -⟩
            rcases hf with _ | ⟨hab, -⟩
            exact absurd hba (not_lt.mpr hab)
          · have hab : a ≤ b := not_lt.mp hba
            have hstep : dominatesLoop (realRow (a :: as)) (realRow (b :: bs)) sb =
                dominatesLoop (realRow as) (realRow bs) (sb || decide (a < b)) := by
              simp [realRow, dominatesLoop, hgt, hlt, hba]
            rw [hstep, ih bs _ hlen']
            constructor
            · rintro ⟨hfa, hsb⟩
              refine ⟨List.Forall₂.cons hab hfa, ?_⟩
              rcases hsb with hsb | ⟨k, hk, hklt⟩
              · rcases (by simpa using hsb : sb = true ∨ a < b) with h | h
                · exact Or.inl h
                · exact Or.inr ⟨0, by simp, by simpa using h⟩
              · exact Or.inr ⟨k + 1, by simpa using hk, by simpa using hklt⟩
            · rintro ⟨hfa, hsb⟩
              rcases hfa with _ | ⟨-, hfa⟩
              refine ⟨hfa, ?_⟩
              rcases hsb with hsb | ⟨k, hk, hklt⟩
              · exact Or.inl (by simp [hsb])
              · cases k with
                | zero =>
                    have hab' : a < b := by simpa using hklt
                    exact Or.inl (by simp [hab'])
                | succ j =>
                    exact Or.inr ⟨j, by simpa using hk, by simpa using hklt⟩

/-- On equal-length real-valued rows the loop computes exactly Pareto
dominance. -/
theorem dominatesLoop_real_iff (u v : List ℚ) (hlen : u.length = v.length) :
    (dominatesLoop (realRow u) (realRow v) false = true ↔ ParetoDominates u v) := by
  rw [dominatesLoop_real_char u v false hlen]
  unfold ParetoDominates
  simp

/-- Pareto dominance is irreflexive. -/
theorem paretoDominates_irrefl (u : List ℚ) : ¬ ParetoDominates u u := by
  rintro ⟨-, k, hk, hlt⟩
  exact lt_irrefl _ hlt

/-- Pareto dominance is transitive. -/
theorem paretoDominates_trans {u v w : List ℚ}
    (h1 : ParetoDominates u v) (h2 : ParetoDominates v w) :
    ParetoDominates u w := by
  rcases h1 with ⟨hle1, k, hk, hlt⟩
  rcases h2 with ⟨hle2, -⟩
  obtain ⟨hlen1, hget1⟩ := List.forall₂_iff_get.mp hle1
  obtain ⟨hlen2, hget2⟩ := List.forall₂_iff_get.mp hle2
  constructor
  · rw [List.forall₂_iff_get]
    refine ⟨hlen1.trans hlen2, fun i h₁ h₂ => ?_⟩
    exact le_trans (hget1 i h₁ (hlen1 ▸ h₁)) (hget2 i (hlen1 ▸ h₁) h₂)
  · refine ⟨k, hk, ?_⟩
    have hkv : k < v.length := hlen1 ▸ hk
    have hkw : k < w.length := hlen2 ▸ hkv
    have h1 : u.getD k 0 < v.getD k 0 := hlt
    have h2 : v.getD k 0 ≤ w.getD k 0 := by
      rw [List.getD_eq_getElem _ _ hkv, List.getD_eq_getElem _ _ hkw]
      have := hget2 k hkv hkw
      simpa using this
    exact lt_of_lt_of_le h1 h2

/-! ### List helper lemmas -/

theorem getD_set_self {l : List ℕ} {i v : ℕ} (h : i < l.length) :
    (l.set i v).getD i 0 = v := by
  simp [List.getD_eq_getElem?_getD, List.getElem?_set_self (by simpa using h)]

theorem getD_set_ne {l : List ℕ} (v : ℕ) {i j : ℕ} (h : i ≠ j) :
    (l.set i v).getD j 0 = l.getD j 0 := by
  simp [List.getD_eq_getElem?_getD, List.getElem?_set_ne h]

theorem getD_eq_zero_of_le {l : List ℕ} {i : ℕ} (h : l.length ≤ i) :
    l.getD i 0 = 0 := by
  simp [List.getD_eq_getElem?_getD, List.getElem?_eq_none h]

theorem lt_length_of_getD_ne {l : List ℕ} {i : ℕ} (h : l.getD i 0 ≠ 0) :
    i < l.length := by
  by_contra hc
  exact h (getD_eq_zero_of_le (Nat.le_of_not_lt hc))

theorem sum_set_add {l : List ℕ} {i v : ℕ} (h : i < l.length) :
    (l.set i v).sum + l.getD i 0 = l.sum + v := by
  induction l generalizing i with
  | nil => simp at h
  | cons a as ih =>
      cases i with
      | zero => simp [List.set]; omega
      | succ j =>
          have hj : j < as.length := by simpa using h
          simp only [List.set, List.sum_cons, List.getD_cons_succ]
          have := ih hj
          omega

theorem count_cons_eq (l : List ℕ) (a : ℕ) : (a :: l).count a = l.count a + 1 := by
  simp [List.count_cons]

theorem count_cons_ne {a b : ℕ} (h : a ≠ b) (l : List ℕ) :
    (a :: l).count b = l.count b := by
  simp [List.count_cons, Ne.symm h]

/-! ### Step equations of the propagation primitives -/

theorem processDominated_skip (r d : ℕ) (ds c rk nx : List ℕ)
    (hz : c.getD d 0 = 0) :
    processDominated r (d :: ds) c rk nx = processDominated r ds c rk nx := by
  simp only [processDominated]
  rw [if_pos hz]

theorem processDominated_zero (r d : ℕ) (ds c rk nx : List ℕ)
    (hz : ¬ c.getD d 0 = 0) (h1 : c.getD d 0 - 1 = 0) :
    processDominated r (d :: ds) c rk nx =
      processDominated r ds (c.set d (c.getD d 0 - 1)) (rk.set d r) (nx ++ [d]) := by
  simp only [processDominated]
  rw [if_neg hz, if_pos h1]

theorem processDominated_dec (r d : ℕ) (ds c rk nx : List ℕ)
    (hz : ¬ c.getD d 0 = 0) (h1 : ¬ c.getD d 0 - 1 = 0) :
    processDominated r (d :: ds) c rk nx =
      processDominated r ds (c.set d (c.getD d 0 - 1)) rk nx := by
  simp only [processDominated]
  rw [if_neg hz, if_neg h1]

/-! ### Characterization of `processDominated` -/

theorem processDominated_len (r : ℕ) (ds : List ℕ) :
    ∀ (c rk nx : List ℕ),
      (processDominated r ds c rk nx).1.length = c.length ∧
        (processDominated r ds c rk nx).2.1.length = rk.length := by
  induction ds with
  | nil => intro c rk nx; exact ⟨rfl, rfl⟩
  | cons d ds ih =>
      intro c rk nx
      by_cases hz : c.getD d 0 = 0
      · rw [processDominated_skip r d ds c rk nx hz]
        exact ih c rk nx
      · by_cases h1 : c.getD d 0 - 1 = 0
        · rw [processDominated_zero r d ds c rk nx hz h1]
          rcases ih (c.set d (c.getD d 0 - 1)) (rk.set d r) (nx ++ [d]) with ⟨hA, hB⟩
          rw [hA, hB]
          simp
        · rw [processDominated_dec r d ds c rk nx hz h1]
          rcases ih (c.set d (c.getD d 0 - 1)) rk nx with ⟨hA, hB⟩
          rw [hA, hB]
          simp

theorem processDominated_counts (r : ℕ) (ds : List ℕ) :
    ∀ (c rk nx : List ℕ) (i : ℕ),
      (processDominated r ds c rk nx).1.getD i 0 = c.getD i 0 - ds.count i := by
  induction ds with
  | nil => intro c rk nx i; simp [processDominated]
  | cons d ds ih =>
      intro c rk nx i
      by_cases hz : c.getD d 0 = 0
      · rw [processDominated_skip r d ds c rk nx hz, ih]
        by_cases hid : i = d
        · subst hid
          rw [count_cons_eq]
          omega
        · rw [count_cons_ne (fun h => hid h.symm)]
      · have hd : d < c.length := lt_length_of_getD_ne hz
        have hset : ∀ rk' nx',
            (processDominated r ds (c.set d (c.getD d 0 - 1)) rk' nx').1.getD i 0
              = c.getD i 0 - (d :: ds).count i := by
          intro rk' nx'
          rw [ih]
          by_cases hid : i = d
          · subst hid
            rw [getD_set_self hd, count_cons_eq]
            omega
          · rw [getD_set_ne _ (fun h => hid h.symm), count_cons_ne (fun h => hid h.symm)]
        by_cases h1 : c.getD d 0 - 1 = 0
        · rw [processDominated_zero r d ds c rk nx hz h1]
          exact hset _ _
        · rw [processDominated_dec r d ds c rk nx hz h1]
          exact hset _ _

theorem processDominated_next_mem (r : ℕ) (ds : List ℕ) :
    ∀ (c rk nx : List ℕ) (i : ℕ),
      (i ∈ (processDominated r ds c rk nx).2.2 ↔
        i ∈ nx ∨ (0 < c.getD i 0 ∧ c.getD i 0 ≤ ds.count i)) := by
  induction ds with
  | nil =>
      intro c rk nx i
      show i ∈ nx ↔ i ∈ nx ∨ (0 < c.getD i 0 ∧ c.getD i 0 ≤ List.count i [])
      constructor
      · exact Or.inl
      · rintro (h | ⟨h1, h2⟩)
        · exact h
        · rw [List.count_nil] at h2
          omega
  | cons d ds ih =>
      intro c rk nx i
      by_cases hz : c.getD d 0 = 0
      · rw [processDominated_skip r d ds c rk nx hz, ih]
        by_cases hid : i = d
        · subst hid
          rw [count_cons_eq, hz]
          simp
        · rw [count_cons_ne (fun h => hid h.symm)]
      · have hd : d < c.length := lt_length_of_getD_ne hz
        by_cases h1 : c.getD d 0 - 1 = 0
        · rw [processDominated_zero r d ds c rk nx hz h1, ih]
          by_cases hid : i = d
          · subst hid
            rw [getD_set_self hd, count_cons_eq, h1]
            constructor
            · intro h
              exact Or.inr ⟨by omega, by omega⟩
            · intro h
              exact Or.inl (by simp)
          · rw [getD_set_ne _ (fun h => hid h.symm), count_cons_ne (fun h => hid h.symm)]
            constructor
            · rintro (h | h)
              · rcases List.mem_append.mp h with h' | h'
                · exact Or.inl h'
                · exact absurd (List.mem_singleton.mp h') hid
              · exact Or.inr h
            · rintro (h | h)
              · exact Or.inl (List.mem_append.mpr (Or.inl h))
              · exact Or.inr h
        · rw [processDominated_dec r d ds c rk nx hz h1, ih]
          by_cases hid : i = d
          · subst hid
            rw [getD_set_self hd, count_cons_eq]
            have harith : (0 < c.getD i 0 - 1 ∧ c.getD i 0 - 1 ≤ ds.count i) ↔
                (0 < c.getD i 0 ∧ c.getD i 0 ≤ ds.count i + 1) := by
              omega
            rw [harith]
          · rw [getD_set_ne _ (fun h => hid h.symm), count_cons_ne (fun h => hid h.symm)]

theorem processDominated_ranks (r : ℕ) (ds : List ℕ) :
    ∀ (c rk nx : List ℕ), rk.length = c.length → ∀ (i : ℕ),
      (processDominated r ds c rk nx).2.1.getD i 0 =
        if 0 < c.getD i 0 ∧ c.getD i 0 ≤ ds.count i then r else rk.getD i 0 := by
  induction ds with
  | nil =>
      intro c rk nx _ i
      rw [List.count_nil, if_neg (by omega)]
      rfl
  | cons d ds ih =>
      intro c rk nx hlen i
      by_cases hz : c.getD d 0 = 0
      · rw [processDominated_skip r d ds c rk nx hz, ih c rk nx hlen]
        by_cases hid : i = d
        · subst hid
          rw [count_cons_eq, hz]
          simp
        · rw [count_cons_ne (fun h => hid h.symm)]
      · have hd : d < c.length := lt_length_of_getD_ne hz
        have hdr : d < rk.length := by rw [hlen]; exact hd
        by_cases h1 : c.getD d 0 - 1 = 0
        · rw [processDominated_zero r d ds c rk nx hz h1,
            ih _ _ _ (by simp [hlen])]
          by_cases hid : i = d
          · subst hid
            rw [getD_set_self hd, h1, if_neg (by omega), getD_set_self hdr,
              count_cons_eq, if_pos ⟨by omega, by omega⟩]
          · rw [getD_set_ne _ (fun h => hid h.symm), getD_set_ne _ (fun h => hid h.symm),
              count_cons_ne (fun h => hid h.symm)]
        · rw [processDominated_dec r d ds c rk nx hz h1,
            ih _ _ _ (by simp [hlen])]
          by_cases hid : i = d
          · subst hid
            rw [getD_set_self hd, count_cons_eq]
            have harith : (0 < c.getD i 0 - 1 ∧ c.getD i 0 - 1 ≤ ds.count i) ↔
                (0 < c.getD i 0 ∧ c.getD i 0 ≤ ds.count i + 1) := by
              omega
            exact if_congr harith rfl rfl
          · rw [getD_set_ne _ (fun h => hid h.symm),
              count_cons_ne (fun h => hid h.symm)]

theorem processDominated_nodup_zeros (r : ℕ) (ds : List ℕ) :
    ∀ (c rk nx : List ℕ), nx.Nodup → (∀ j ∈ nx, c.getD j 0 = 0) →
      ((processDominated r ds c rk nx).2.2.Nodup ∧
        ∀ j ∈ (processDominated r ds c rk nx).2.2,
          (processDominated r ds c rk nx).1.getD j 0 = 0) := by
  induction ds with
  | nil => intro c rk nx hn hz; exact ⟨hn, hz⟩
  | cons d ds ih =>
      intro c rk nx hn hzero
      by_cases hz : c.getD d 0 = 0
      · rw [processDominated_skip r d ds c rk nx hz]
        exact ih c rk nx hn hzero
      · have hd : d < c.length := lt_length_of_getD_ne hz
        by_cases h1 : c.getD d 0 - 1 = 0
        · rw [processDominated_zero r d ds c rk nx hz h1]
          refine ih _ _ _ ?_ ?_
          · have hdn : d ∉ nx := fun hmem => hz (hzero d hmem)
            simp [List.nodup_append, hn, hdn]
          · intro j hj
            rcases List.mem_append.mp hj with hj' | hj'
            · have hjd : j ≠ d := fun h => hz (h ▸ hzero j hj')
              rw [getD_set_ne _ (fun h => hjd h.symm)]
              exact hzero j hj'
            · rw [List.mem_singleton.mp hj', getD_set_self hd]
              exact h1
        · rw [processDominated_dec r d ds c rk nx hz h1]
          refine ih _ _ _ hn ?_
          intro j hj
          have hjd : j ≠ d := fun h => hz (h ▸ hzero j hj)
          rw [getD_set_ne _ (fun h => hjd h.symm)]
          exact hzero j hj

theorem processDominated_sum (r : ℕ) (ds : List ℕ) :
    ∀ (c rk nx : List ℕ),
      (processDominated r ds c rk nx).1.sum + (processDominated r ds c rk nx).2.2.length
        ≤ c.sum + nx.length := by
  induction ds with
  | nil => intro c rk nx; exact Nat.le_refl _
  | cons d ds ih =>
      intro c rk nx
      by_cases hz : c.getD d 0 = 0
      · rw [processDominated_skip r d ds c rk nx hz]
        exact ih c rk nx
      · have hd : d < c.length := lt_length_of_getD_ne hz
        have hsum := sum_set_add (l := c) (v := c.getD d 0 - 1) hd
        by_cases h1 : c.getD d 0 - 1 = 0
        · rw [processDominated_zero r d ds c rk nx hz h1]
          have := ih (c.set d (c.getD d 0 - 1)) (rk.set d r) (nx ++ [d])
          have hlen : (nx ++ [d]).length = nx.length + 1 := by simp
          omega
        · rw [processDominated_dec r d ds c rk nx hz h1]
          have := ih (c.set d (c.getD d 0 - 1)) rk nx
          omega

theorem decBy_nil (dset : List (List ℕ)) (i : ℕ) : decBy dset [] i = 0 := rfl

theorem decBy_cons (dset : List (List ℕ)) (q : ℕ) (f : List ℕ) (i : ℕ) :
    decBy dset (q :: f) i = (dset.getD q []).count i + decBy dset f i := by
  simp [decBy]

theorem decBy_append (dset : List (List ℕ)) (f g : List ℕ) (i : ℕ) :
    decBy dset (f ++ g) i = decBy dset f i + decBy dset g i := by
  simp [decBy]

theorem processFront_cons (dset : List (List ℕ)) (r q : ℕ) (f c rk nx : List ℕ) :
    processFront dset r (q :: f) c rk nx =
      processFront dset r f
        (processDominated r (dset.getD q []) c rk nx).1
        (processDominated r (dset.getD q []) c rk nx).2.1
        (processDominated r (dset.getD q []) c rk nx).2.2 := rfl

theorem processFront_len (dset : List (List ℕ)) (r : ℕ) (f : List ℕ) :
    ∀ (c rk nx : List ℕ),
      (processFront dset r f c rk nx).1.length = c.length ∧
        (processFront dset r f c rk nx).2.1.length = rk.length := by
  induction f with
  | nil => intro c rk nx; exact ⟨rfl, rfl⟩
  | cons q f ih =>
      intro c rk nx
      rw [processFront_cons]
      rcases ih (processDominated r (dset.getD q []) c rk nx).1
        (processDominated r (dset.getD q []) c rk nx).2.1
        (processDominated r (dset.getD q []) c rk nx).2.2 with ⟨hA, hB⟩
      rcases processDominated_len r (dset.getD q []) c rk nx with ⟨hC, hD⟩
      exact ⟨hA.trans hC, hB.trans hD⟩

theorem processFront_counts (dset : List (List ℕ)) (r : ℕ) (f : List ℕ) :
    ∀ (c rk nx : List ℕ) (i : ℕ),
      (processFront dset r f c rk nx).1.getD i 0 = c.getD i 0 - decBy dset f i := by
  induction f with
  | nil => intro c rk nx i; rw [decBy_nil]; rfl
  | cons q f ih =>
      intro c rk nx i
      rw [processFront_cons, ih, processDominated_counts, decBy_cons]
      omega

theorem processFront_next_mem (dset : List (List ℕ)) (r : ℕ) (f : List ℕ) :
    ∀ (c rk nx : List ℕ) (i : ℕ),
      (i ∈ (processFront dset r f c rk nx).2.2 ↔
        i ∈ nx ∨ (0 < c.getD i 0 ∧ c.getD i 0 ≤ decBy dset f i)) := by
  induction f with
  | nil =>
      intro c rk nx i
      rw [decBy_nil]
      constructor
      · exact Or.inl
      · rintro (h | h)
        · exact h
        · omega
  | cons q f ih =>
      intro c rk nx i
      rw [processFront_cons, ih, processDominated_next_mem, processDominated_counts,
        decBy_cons]
      by_cases him : i ∈ nx
      · simp [him]
      · simp only [him, false_or]
        omega

theorem processFront_ranks (dset : List (List ℕ)) (r : ℕ) (f : List ℕ) :
    ∀ (c rk nx : List ℕ), rk.length = c.length → ∀ (i : ℕ),
      (processFront dset r f c rk nx).2.1.getD i 0 =
        if 0 < c.getD i 0 ∧ c.getD i 0 ≤ decBy dset f i then r else rk.getD i 0 := by
  induction f with
  | nil =>
      intro c rk nx _ i
      rw [decBy_nil, if_neg (by omega)]
      rfl
  | cons q f ih =>
      intro c rk nx hlen i
      have hplen := processDominated_len r (dset.getD q []) c rk nx
      rw [processFront_cons,
        ih _ _ _ (by rw [hplen.2, hplen.1, hlen]) i,
        processDominated_counts, processDominated_ranks r _ c rk nx hlen i,
        decBy_cons]
      by_cases h1 : 0 < c.getD i 0 - (dset.getD q []).count i ∧
          c.getD i 0 - (dset.getD q []).count i ≤ decBy dset f i
      · rw [if_pos h1, if_pos (by omega)]
      · rw [if_neg h1]
        by_cases h2 : 0 < c.getD i 0 ∧ c.getD i 0 ≤ (dset.getD q []).count i
        · rw [if_pos h2, if_pos (by omega)]
        · rw [if_neg h2, if_neg (by omega)]

theorem processFront_nodup_zeros (dset : List (List ℕ)) (r : ℕ) (f : List ℕ) :
    ∀ (c rk nx : List ℕ), nx.Nodup → (∀ j ∈ nx, c.getD j 0 = 0) →
      ((processFront dset r f c rk nx).2.2.Nodup ∧
        ∀ j ∈ (processFront dset r f c rk nx).2.2,
          (processFront dset r f c rk nx).1.getD j 0 = 0) := by
  induction f with
  | nil => intro c rk nx hn hz; exact ⟨hn, hz⟩
  | cons q f ih =>
      intro c rk nx hn hz
      rw [processFront_cons]
      rcases processDominated_nodup_zeros r (dset.getD q []) c rk nx hn hz with ⟨hn', hz'⟩
      exact ih _ _ _ hn' hz'

theorem processFront_sum (dset : List (List ℕ)) (r : ℕ) (f : List ℕ) :
    ∀ (c rk nx : List ℕ),
      (processFront dset r f c rk nx).1.sum + (processFront dset r f c rk nx).2.2.length
        ≤ c.sum + nx.length := by
  induction f with
  | nil => intro c rk nx; exact Nat.le_refl _
  | cons q f ih =>
      intro c rk nx
      rw [processFront_cons]
      have h1 := ih (processDominated r (dset.getD q []) c rk nx).1
        (processDominated r (dset.getD q []) c rk nx).2.1
        (processDominated r (dset.getD q []) c rk nx).2.2
      have h2 := processDominated_sum r (dset.getD q []) c rk nx
      omega

/-! ### Characterization of the pairwise phase -/

theorem dominates_eqlen (a b : Row) (h : a.length = b.length) :
    dominates a b = .ok (dominatesLoop a b false) := by
  unfold dominates
  rw [if_pos h]

theorem dominates_nelen (a b : Row) (h : ¬ a.length = b.length) :
    dominates a b = .error shapeErrMsg := by
  unfold dominates
  rw [if_neg h]

/-- Complete case analysis of the inner `q` loop: either it throws the
shape-mismatch error and some compared pair of rows differs in length, or
it returns exactly the dominated-set row and domination count described
by `Dom`, and every compared pair of rows had equal lengths. -/
theorem pairScan_cases (obj : ObjMatrix) (p : ℕ) (qs : List ℕ) :
    (pairScan obj p qs = .error shapeErrMsg ∧
        ∃ q ∈ qs, q ≠ p ∧ (getRow obj p).length ≠ (getRow obj q).length) ∨
      (pairScan obj p qs = .ok
          (qs.filter (fun q => decide (p ≠ q) && Dom obj p q),
            (qs.filter (fun q =>
              decide (p ≠ q) && !Dom obj p q && Dom obj q p)).length) ∧
        ∀ q ∈ qs, q ≠ p → (getRow obj p).length = (getRow obj q).length) := by
  induction qs with
  | nil =>
      right
      refine ⟨?_, by simp⟩
      simp [pairScan]
  | cons q qs ih =>
      by_cases hpq : p = q
      · have hred : pairScan obj p (q :: qs) = pairScan obj p qs := by
          simp [pairScan, hpq]
        have hskip : (decide (p ≠ q) && Dom obj p q) = false := by
          simp [hpq]
        have hskip2 : (decide (p ≠ q) && !Dom obj p q && Dom obj q p) = false := by
          simp [hpq]
        rcases ih with ⟨herr, hq, hqm, hqp, hql⟩ | ⟨hok, hlen⟩
        · exact Or.inl ⟨hred ▸ herr, hq, List.mem_cons_of_mem _ hqm, hqp, hql⟩
        · right
          refine ⟨?_, ?_⟩
          · rw [hred, hok, List.filter_cons, List.filter_cons, hskip, hskip2]
            simp
          · intro q' hq' hq'p
            rcases List.mem_cons.mp hq' with rfl | hq'
            · exact absurd hpq.symm hq'p
            · exact hlen q' hq' hq'p
      · by_cases hl : (getRow obj p).length = (getRow obj q).length
        · have hdom : dominates (getRow obj p) (getRow obj q) = .ok (Dom obj p q) :=
            dominates_eqlen _ _ hl
          have hdom2 : dominates (getRow obj q) (getRow obj p) = .ok (Dom obj q p) :=
            dominates_eqlen _ _ hl.symm
          have hdp : decide (p ≠ q) = true := by simp [hpq]
          cases hD : Dom obj p q with
          | true =>
              have hred : pairScan obj p (q :: qs) =
                  match pairScan obj p qs with
                  | .error e => .error e
                  | .ok (s, c) => .ok (q :: s, c) := by
                simp only [pairScan, if_neg hpq, hdom, hD]
              rcases ih with ⟨herr, hq, hqm, hqp, hql⟩ | ⟨hok, hlen⟩
              · refine Or.inl ⟨?_, hq, List.mem_cons_of_mem _ hqm, hqp, hql⟩
                rw [hred, herr]
              · right
                refine ⟨?_, ?_⟩
                · rw [hred, hok, List.filter_cons, List.filter_cons]
                  rw [show (decide (p ≠ q) && Dom obj p q) = true by simp [hpq, hD]]
                  rw [show (decide (p ≠ q) && !Dom obj p q && Dom obj q p) = false by
                    simp [hD]]
                  simp
                · intro q' hq' hq'p
                  rcases List.mem_cons.mp hq' with rfl | hq'
                  · exact hl
                  · exact hlen q' hq' hq'p
          | false =>
              have hred : pairScan obj p (q :: qs) =
                  match pairScan obj p qs with
                  | .error e => .error e
                  | .ok (s, c) => .ok (s, if Dom obj q p then c + 1 else c) := by
                simp only [pairScan, if_neg hpq, hdom, hD, hdom2]
              rcases ih with ⟨herr, hq, hqm, hqp, hql⟩ | ⟨hok, hlen⟩
              · refine Or.inl ⟨?_, hq, List.mem_cons_of_mem _ hqm, hqp, hql⟩
                rw [hred, herr]
              · right
                refine ⟨?_, ?_⟩
                · rw [hred, hok, List.filter_cons, List.filter_cons]
                  rw [show (decide (p ≠ q) && Dom obj p q) = false by simp [hD]]
                  rw [show (decide (p ≠ q) && !Dom obj p q && Dom obj q p)
                      = Dom obj q p by simp [hpq, hD]]
                  cases hD2 : Dom obj q p with
                  | true => simp
                  | false => simp
                · intro q' hq' hq'p
                  rcases List.mem_cons.mp hq' with rfl | hq'
                  · exact hl
                  · exact hlen q' hq' hq'p
        · have hdom : dominates (getRow obj p) (getRow obj q) = .error shapeErrMsg :=
            dominates_nelen _ _ hl
          refine Or.inl ⟨?_, q, List.mem_cons_self _ _, fun h => hpq h.symm, hl⟩
          simp only [pairScan, if_neg hpq, hdom]

theorem Dom_irrefl (obj : ObjMatrix) (p : ℕ) : Dom obj p p = false :=
  dominatesLoop_self _ _

theorem Dom_antisymm {obj : ObjMatrix} {p q : ℕ} (h : Dom obj p q = true) :
    Dom obj q p = false :=
  dominatesLoop_antisymm h

/-- The `else if` counting filter of the pairwise phase counts exactly
the dominators. -/
theorem countFilter_eq (obj : ObjMatrix) (p : ℕ) (l : List ℕ) :
    l.filter (fun q => decide (p ≠ q) && !Dom obj p q && Dom obj q p) =
      l.filter (fun q => Dom obj q p) := by
  apply List.filter_congr
  intro q _
  cases hqp : Dom obj q p with
  | false => simp [hqp]
  | true =>
      have hpq : Dom obj p q = false := Dom_antisymm hqp
      have hne : p ≠ q := by
        rintro rfl
        rw [Dom_irrefl] at hqp
        exact Bool.false_ne_true hqp
      simp [hqp, hpq, hne]

theorem range_getD {k n : ℕ} (h : k < n) : (List.range n).getD k 0 = k := by
  rw [List.getD_eq_getElem _ _ (by simpa using h)]
  simp

/-- Complete case analysis of the outer `p` loop. -/
theorem buildPhase_cases (obj : ObjMatrix) (ps : List ℕ) :
    (buildPhase obj ps = .error shapeErrMsg ∧
        ∃ p ∈ ps, ∃ q ∈ List.range obj.length, q ≠ p ∧
          (getRow obj p).length ≠ (getRow obj q).length) ∨
      (∃ dset dcount, buildPhase obj ps = .ok (dset, dcount) ∧
        dset.length = ps.length ∧ dcount.length = ps.length ∧
        (∀ k, k < ps.length →
          dset.getD k [] = (List.range obj.length).filter
            (fun q => decide (ps.getD k 0 ≠ q) && Dom obj (ps.getD k 0) q) ∧
          dcount.getD k 0 = ((List.range obj.length).filter
            (fun q => decide (ps.getD k 0 ≠ q) && !Dom obj (ps.getD k 0) q &&
              Dom obj q (ps.getD k 0))).length) ∧
        ∀ p ∈ ps, ∀ q ∈ List.range obj.length, q ≠ p →
          (getRow obj p).length = (getRow obj q).length) := by
  induction ps with
  | nil =>
      right
      exact ⟨[], [], rfl, rfl, rfl, fun k hk => absurd hk (by simp), by simp⟩
  | cons p ps ih =>
      rcases pairScan_cases obj p (List.range obj.length) with
        ⟨herr, q, hqm, hqp, hql⟩ | ⟨hok, hlen⟩
      · left
        refine ⟨?_, p, List.mem_cons_self _ _, q, hqm, hqp, hql⟩
        simp only [buildPhase, herr]
      · rcases ih with ⟨herr', hwit⟩ | ⟨dset, dcount, hok', hdl, hcl, hpt, hall⟩
        · left
          refine ⟨?_, ?_⟩
          · simp only [buildPhase, hok, herr']
          · rcases hwit with ⟨p', hp'm, q', hq'm, hq'p, hq'l⟩
            exact ⟨p', List.mem_cons_of_mem _ hp'm, q', hq'm, hq'p, hq'l⟩
        · right
          refine ⟨(List.range obj.length).filter
              (fun q => decide (p ≠ q) && Dom obj p q) :: dset,
            ((List.range obj.length).filter (fun q =>
              decide (p ≠ q) && !Dom obj p q && Dom obj q p)).length :: dcount,
            ?_, by simp [hdl], by simp [hcl], ?_, ?_⟩
          · simp only [buildPhase, hok, hok']
          · intro k hk
            cases k with
            | zero => simp
            | succ j =>
                have hj : j < ps.length := by simpa using hk
                simpa using hpt j hj
          · intro p' hp' q' hq' hq'p
            rcases List.mem_cons.mp hp' with rfl | hp'
            · exact hlen q' hq' hq'p
            · exact hall p' hp' q' hq' hq'p

/-! ### More list helpers -/

theorem getD_default_of_le {α : Type} (d : α) {l : List α} {i : ℕ}
    (h : l.length ≤ i) : l.getD i d = d := by
  simp [List.getD_eq_getElem?_getD, List.getElem?_eq_none h]

theorem getD_append_lt {α : Type} (d : α) (l₁ l₂ : List α) (k : ℕ)
    (h : k < l₁.length) : (l₁ ++ l₂).getD k d = l₁.getD k d := by
  rw [List.getD_eq_getElem _ _ (by simp; omega), List.getD_eq_getElem _ _ h]
  exact List.getElem_append_left h

theorem getD_append_len {α : Type} (d : α) (l₁ : List α) (x : α) :
    (l₁ ++ [x]).getD l₁.length d = x := by
  rw [List.getD_eq_getElem _ _ (by simp)]
  simp

theorem take_append_le {α : Type} (l₁ l₂ : List α) (k : ℕ) (h : k ≤ l₁.length) :
    (l₁ ++ l₂).take k = l₁.take k := by
  rw [List.take_append_eq_append_take]
  have hz : k - l₁.length = 0 := by omega
  rw [hz, List.take_zero, List.append_nil]

theorem getD_replicate_zero (n i : ℕ) : (List.replicate n 0).getD i 0 = 0 := by
  by_cases h : i < n
  · rw [List.getD_eq_getElem _ _ (by simpa using h)]
    simp
  · exact getD_eq_zero_of_le (by simpa using Nat.le_of_not_lt h)

theorem mem_join_iff_getD {F : List (List ℕ)} {i : ℕ} :
    i ∈ F.join ↔ ∃ k, k < F.length ∧ i ∈ F.getD k [] := by
  rw [List.mem_join]
  constructor
  · rintro ⟨l, hl, hil⟩
    rcases List.mem_iff_get.mp hl with ⟨⟨k, hk⟩, rfl⟩
    exact ⟨k, hk, by rw [List.getD_eq_getElem _ _ hk]; simpa using hil⟩
  · rintro ⟨k, hk, hik⟩
    refine ⟨F.getD k [], ?_, hik⟩
    rw [List.getD_eq_getElem _ _ hk]
    exact List.getElem_mem _

theorem filter_length_lt {l : List ℕ} {p : ℕ → Bool} {x : ℕ}
    (hx : x ∈ l) (hpx : p x = false) : (l.filter p).length < l.length := by
  induction l with
  | nil => exact absurd hx (by simp)
  | cons a l ih =>
      rcases List.mem_cons.mp hx with rfl | hx'
      · rw [List.filter_cons, hpx]
        simp only [Bool.false_eq_true, if_false, List.length_cons]
        have := List.length_filter_le p l
        omega
      · rw [List.filter_cons]
        cases hpa : p a
        · simp only [Bool.false_eq_true, if_false, List.length_cons]
          have := ih hx'
          omega
        · simp only [if_true, List.length_cons]
          have := ih hx'
          omega

/-- Every nonempty finite list over which `R` is irreflexive and
transitive has an `R`-minimal element. -/
theorem exists_min_of_irrefl_trans (R : ℕ → ℕ → Bool) :
    ∀ (N : ℕ) (l : List ℕ), l.length ≤ N → l ≠ [] →
      (∀ a ∈ l, R a a = false) →
      (∀ a b c, a ∈ l → b ∈ l → c ∈ l →
        R a b = true → R b c = true → R a c = true) →
      ∃ m ∈ l, ∀ j ∈ l, R j m = false := by
  intro N
  induction N with
  | zero =>
      intro l hl hne _ _
      rw [Nat.le_zero] at hl
      exact absurd (List.length_eq_zero.mp hl) hne
  | succ N ih =>
      intro l hl hne hirr htr
      cases l with
      | nil => exact absurd rfl hne
      | cons a l' =>
          by_cases hmin : ∀ j ∈ (a :: l'), R j a = false
          · exact ⟨a, List.mem_cons_self _ _, hmin⟩
          · have hex : ∃ b ∈ (a :: l'), R b a = true := by
              by_contra hc
              push_neg at hc
              refine hmin (fun j hj => ?_)
              cases hja : R j a
              · rfl
              · exact absurd hja (hc j hj)
            rcases hex with ⟨b, hbm, hba⟩
            have hpa : (fun x => R x a) a = false := hirr a (List.mem_cons_self _ _)
            have hlt : ((a :: l').filter (fun x => R x a)).length < (a :: l').length :=
              filter_length_lt (List.mem_cons_self _ _) hpa
            have hsub : ∀ x ∈ (a :: l').filter (fun x => R x a), x ∈ (a :: l') :=
              fun x hx => List.mem_of_mem_filter hx
            have hne₂ : (a :: l').filter (fun x => R x a) ≠ [] := by
              intro hc
              have : b ∈ (a :: l').filter (fun x => R x a) :=
                List.mem_filter.mpr ⟨hbm, hba⟩
              rw [hc] at this
              exact absurd this (by simp)
            rcases ih ((a :: l').filter (fun x => R x a))
                (by have := hl; omega)
                hne₂
                (fun x hx => hirr x (hsub x hx))
                (fun x y z hx hy hz => htr x y z (hsub x hx) (hsub y hy) (hsub z hz))
              with ⟨m, hm, hmmin⟩
            refine ⟨m, hsub m hm, fun j hj => ?_⟩
            cases hjm : R j m
            · rfl
            · have hma : R m a = true := (List.mem_filter.mp hm).2
              have hja : R j a = true :=
                htr j m a hj (hsub m hm) (List.mem_cons_self _ _) hjm hma
              have hjf : j ∈ (a :: l').filter (fun x => R x a) :=
                List.mem_filter.mpr ⟨hj, hja⟩
              have := hmmin j hjf
              rw [hjm] at this
              exact this

theorem phaseOut_of_buildPhase {obj : ObjMatrix} {dset : List (List ℕ)}
    {dcount : List ℕ}
    (h : buildPhase obj (List.range obj.length) = .ok (dset, dcount)) :
    PhaseOut obj dset dcount := by
  rcases buildPhase_cases obj (List.range obj.length) with
    ⟨herr, -⟩ | ⟨d', c', hok, hdl, hcl, hpt, -⟩
  · rw [herr] at h
    exact absurd h (by simp)
  · have heq : (d', c') = (dset, dcount) := by
      have := hok.symm.trans h
      exact Except.ok.inj this
    have h1 : d' = dset := congrArg Prod.fst heq
    have h2 : c' = dcount := congrArg Prod.snd heq
    subst h1
    subst h2
    refine ⟨by simpa using hdl, by simpa using hcl, ?_, ?_⟩
    · intro p hp
      have := (hpt p (by simpa using hp)).1
      rwa [range_getD hp] at this
    · intro p hp
      have := (hpt p (by simpa using hp)).2
      rw [range_getD hp] at this
      rw [this, countFilter_eq]
      rfl

theorem PhaseOut.row_mem {obj : ObjMatrix} {dset : List (List ℕ)} {dcount : List ℕ}
    (po : PhaseOut obj dset dcount) (p q : ℕ) :
    q ∈ dset.getD p [] ↔
      p < obj.length ∧ q < obj.length ∧ p ≠ q ∧ Dom obj p q = true := by
  by_cases hp : p < obj.length
  · rw [po.dset_row p hp]
    simp only [List.mem_filter, List.mem_range, Bool.and_eq_true, decide_eq_true_eq]
    constructor
    · rintro ⟨hq, hne, hd⟩
      exact ⟨hp, hq, hne, hd⟩
    · rintro ⟨-, hq, hne, hd⟩
      exact ⟨hq, hne, hd⟩
  · rw [getD_default_of_le [] (by rw [po.dset_len]; omega)]
    simp only [List.not_mem_nil, false_iff]
    rintro ⟨hp', -⟩
    exact hp hp'

theorem PhaseOut.row_nodup {obj : ObjMatrix} {dset : List (List ℕ)} {dcount : List ℕ}
    (po : PhaseOut obj dset dcount) (p : ℕ) : (dset.getD p []).Nodup := by
  by_cases hp : p < obj.length
  · rw [po.dset_row p hp]
    exact (List.nodup_range _).filter _
  · rw [getD_default_of_le [] (by rw [po.dset_len]; omega)]
    exact List.nodup_nil

theorem PhaseOut.decBy_eq {obj : ObjMatrix} {dset : List (List ℕ)} {dcount : List ℕ}
    (po : PhaseOut obj dset dcount) (f : List ℕ) (i : ℕ) :
    decBy dset f i = (f.filter (fun q => decide (i ∈ dset.getD q []))).length := by
  induction f with
  | nil => rfl
  | cons q f ih =>
      rw [decBy_cons, ih, List.filter_cons]
      by_cases hm : i ∈ dset.getD q []
      · have hmb : decide (i ∈ dset.getD q []) = true := by simpa using hm
        rw [List.count_eq_one_of_mem (po.row_nodup q) hm, if_pos hmb, List.length_cons]
        omega
      · have hmb : ¬ decide (i ∈ dset.getD q []) = true := by simpa using hm
        rw [List.count_eq_zero.mpr hm, if_neg hmb]
        omega

theorem PhaseOut.decBy_le {obj : ObjMatrix} {dset : List (List ℕ)} {dcount : List ℕ}
    (po : PhaseOut obj dset dcount) {f : List ℕ} (hnd : f.Nodup) (i : ℕ) :
    decBy dset f i ≤ dominationCount obj i := by
  rw [po.decBy_eq]
  have hsub : (f.filter (fun q => decide (i ∈ dset.getD q []))).Subperm
      ((List.range obj.length).filter (fun q => Dom obj q i)) := by
    apply List.subperm_of_subset (hnd.filter _)
    intro q hq
    rcases List.mem_filter.mp hq with ⟨-, hq2⟩
    rcases (po.row_mem q i).mp (by simpa using hq2) with ⟨hqlt, -, -, hd⟩
    exact List.mem_filter.mpr ⟨List.mem_range.mpr hqlt, hd⟩
  exact hsub.length_le

theorem PhaseOut.covered_of_decBy_eq {obj : ObjMatrix} {dset : List (List ℕ)}
    {dcount : List ℕ} (po : PhaseOut obj dset dcount) {A : List ℕ} (hnd : A.Nodup)
    {i : ℕ} (hi : i < obj.length)
    (heq : decBy dset A i = dominationCount obj i)
    {j : ℕ} (hj : j < obj.length) (hdom : Dom obj j i = true) : j ∈ A := by
  rw [po.decBy_eq] at heq
  have hsub : (A.filter (fun q => decide (i ∈ dset.getD q []))).Subperm
      ((List.range obj.length).filter (fun q => Dom obj q i)) := by
    apply List.subperm_of_subset (hnd.filter _)
    intro q hq
    rcases List.mem_filter.mp hq with ⟨-, hq2⟩
    rcases (po.row_mem q i).mp (by simpa using hq2) with ⟨hqlt, -, -, hd⟩
    exact List.mem_filter.mpr ⟨List.mem_range.mpr hqlt, hd⟩
  have hperm := hsub.perm_of_length_le (by rw [heq]; rfl)
  have hjm : j ∈ (List.range obj.length).filter (fun q => Dom obj q i) :=
    List.mem_filter.mpr ⟨List.mem_range.mpr hj, hdom⟩
  have := hperm.mem_iff.mpr hjm
  exact List.mem_of_mem_filter this

theorem PhaseOut.decBy_pos_witness {obj : ObjMatrix} {dset : List (List ℕ)}
    {dcount : List ℕ} (po : PhaseOut obj dset dcount) {f : List ℕ} {i : ℕ}
    (h : 0 < decBy dset f i) : ∃ q ∈ f, Dom obj q i = true := by
  rw [po.decBy_eq] at h
  have : f.filter (fun q => decide (i ∈ dset.getD q [])) ≠ [] := by
    intro hc
    rw [hc] at h
    exact absurd h (by simp)
  rcases List.exists_mem_of_ne_nil _ this with ⟨q, hq⟩
  rcases List.mem_filter.mp hq with ⟨hqf, hq2⟩
  rcases (po.row_mem q i).mp (by simpa using hq2) with ⟨-, -, -, hd⟩
  exact ⟨q, hqf, hd⟩

theorem dominationCount_eq_zero_iff (obj : ObjMatrix) (i : ℕ) :
    dominationCount obj i = 0 ↔ ∀ j, j < obj.length → Dom obj j i = false := by
  unfold dominationCount
  rw [List.length_eq_zero, List.filter_eq_nil]
  constructor
  · intro h j hj
    have := h j (List.mem_range.mpr hj)
    simpa using this
  · intro h j hj
    simp [h j (List.mem_range.mp hj)]

/-- The invariant holds on entry to the loop. -/
theorem loopInv_init {obj : ObjMatrix} {dset : List (List ℕ)} {dcount : List ℕ}
    (po : PhaseOut obj dset dcount) :
    LoopInv obj dset
      [(List.range obj.length).filter (fun i => decide (dcount.getD i 0 = 0))]
      0 dcount (List.replicate obj.length 0) := by
  have hmemf : ∀ i, i ∈ (List.range obj.length).filter
      (fun i => decide (dcount.getD i 0 = 0)) ↔
      i < obj.length ∧ dcount.getD i 0 = 0 := by
    intro i
    rw [List.mem_filter, List.mem_range]
    simp
  have hjoin : ([(List.range obj.length).filter
      (fun i => decide (dcount.getD i 0 = 0))] : List (List ℕ)).join =
      (List.range obj.length).filter (fun i => decide (dcount.getD i 0 = 0)) := by
    simp
  refine ⟨po.dcount_len, List.length_replicate _ _, by simp, by simp, ?_, ?_, ?_, ?_, ?_, ?_, ?_⟩
  · rw [hjoin]
    exact (List.nodup_range _).filter _
  · intro i hi
    rw [hjoin] at hi
    exact ((hmemf i).mp hi).1
  · intro i hi
    simpa [decBy_nil] using po.dcount_at i hi
  · intro i hi
    rw [hjoin, hmemf i]
    constructor
    · rintro ⟨-, h⟩
      exact h
    · intro h
      exact ⟨hi, h⟩
  · intro k hk i hik
    have hk0 : k = 0 := by simpa using hk
    subst hk0
    exact getD_replicate_zero _ _
  · intro k hk i hik j hj hdom
    have hk0 : k = 0 := by simpa using hk
    subst hk0
    simp only [List.getD_cons_zero] at hik
    rcases (hmemf i).mp hik with ⟨hi, hz⟩
    rw [po.dcount_at i hi] at hz
    have := (dominationCount_eq_zero_iff obj i).mp hz j hj
    rw [hdom] at this
    exact absurd this (by simp)
  · intro k hk0 hk i hik
    have : k < 1 := by simpa using hk
    omega

/-- One loop iteration preserves the invariant. -/
theorem loopInv_step {obj : ObjMatrix} {dset : List (List ℕ)} {dcount : List ℕ}
    {F : List (List ℕ)} {cr : ℕ} {c rk c' rk' nxt : List ℕ}
    (po : PhaseOut obj dset dcount)
    (inv : LoopInv obj dset F cr c rk) (hcr : cr < F.length)
    (hstep : processFront dset (cr + 1) (F.getD cr []) c rk [] = (c', rk', nxt)) :
    LoopInv obj dset (if nxt = [] then F else F ++ [nxt]) (cr + 1) c' rk' := by
  set n := obj.length with hn
  set f := F.getD cr [] with hf
  set F' := (if nxt = [] then F else F ++ [nxt]) with hF'
  -- basic shape facts
  have hFlen : F.length = cr + 1 := Nat.le_antisymm inv.len_le (Nat.succ_le_of_lt hcr)
  have hframe : F = F.take cr ++ [f] := by
    conv_lhs => rw [← List.take_append_drop cr F]
    have h1 : F.drop cr = F[cr] :: F.drop (cr + 1) := List.drop_eq_getElem_cons hcr
    have h2 : F.drop (cr + 1) = [] := List.drop_eq_nil_of_le (by omega)
    rw [h1, h2, hf, List.getD_eq_getElem _ _ hcr]
  have hjoinF : F.join = (F.take cr).join ++ f := by
    conv_lhs => rw [hframe]
    simp
  have htake_all : F.take (cr + 1) = F := List.take_all_of_le (by omega)
  have hfs : ∀ i ∈ f, i < n := fun i hi => inv.join_lt i (by rw [hjoinF]; simp [hi])
  -- the per-front decrement never exceeds the live count
  have hdecle : ∀ i, i < n → decBy dset f i ≤ c.getD i 0 := by
    intro i hi
    have h1 := po.decBy_le inv.join_nodup i
    rw [hjoinF, decBy_append] at h1
    have h2 := inv.counts i hi
    omega
  -- output characterizations
  have hc' : ∀ i, c'.getD i 0 = c.getD i 0 - decBy dset f i := by
    intro i
    have := processFront_counts dset (cr + 1) f c rk [] i
    rw [hstep] at this
    exact this
  have hnxt : ∀ i, i ∈ nxt ↔ 0 < c.getD i 0 ∧ c.getD i 0 ≤ decBy dset f i := by
    intro i
    have := processFront_next_mem dset (cr + 1) f c rk [] i
    rw [hstep] at this
    simpa using this
  have hrk' : ∀ i, rk'.getD i 0 =
      if 0 < c.getD i 0 ∧ c.getD i 0 ≤ decBy dset f i then cr + 1
      else rk.getD i 0 := by
    intro i
    have := processFront_ranks dset (cr + 1) f c rk []
      (inv.rk_len.trans inv.c_len.symm) i
    rw [hstep] at this
    exact this
  have hnz : nxt.Nodup ∧ ∀ j ∈ nxt, c'.getD j 0 = 0 := by
    have := processFront_nodup_zeros dset (cr + 1) f c rk []
      List.nodup_nil (by simp)
    rw [hstep] at this
    exact this
  have hlen1 : c'.length = n := by
    have := (processFront_len dset (cr + 1) f c rk []).1
    rw [hstep] at this
    rw [show ((c', rk', nxt) : List ℕ × List ℕ × List ℕ).1 = c' from rfl] at this
    rw [this, inv.c_len]
  have hlen2 : rk'.length = n := by
    have := (processFront_len dset (cr + 1) f c rk []).2
    rw [hstep] at this
    rw [show ((c', rk', nxt) : List ℕ × List ℕ × List ℕ).2.1 = rk' from rfl] at this
    rw [this, inv.rk_len]
  have hnn : ∀ i ∈ nxt, i < n := by
    intro i hi
    have h1 := ((hnxt i).mp hi).1
    have hlt : i < c.length := lt_length_of_getD_ne (by omega)
    rwa [inv.c_len] at hlt
  have hnotinF : ∀ i ∈ nxt, i ∉ F.join := by
    intro i hi hiF
    have h1 := ((hnxt i).mp hi).1
    have h2 := (inv.mem_iff i (hnn i hi)).mp hiF
    omega
  -- shape of the new fronts list
  have hjoin' : F'.join = F.join ++ nxt := by
    rw [hF']
    by_cases h : nxt = []
    · simp [h]
    · simp [h]
  have hgetD' : ∀ k, k < F.length → F'.getD k [] = F.getD k [] := by
    intro k hk
    rw [hF']
    by_cases h : nxt = []
    · rw [if_pos h]
    · rw [if_neg h]
      exact getD_append_lt [] F [nxt] k hk
  have htake' : ∀ k, k ≤ F.length → F'.take k = F.take k := by
    intro k hk
    rw [hF']
    by_cases h : nxt = []
    · rw [if_pos h]
    · rw [if_neg h]
      exact take_append_le F [nxt] k hk
  have hF'len : F'.length = F.length + (if nxt = [] then 0 else 1) := by
    rw [hF']
    by_cases h : nxt = [] <;> simp [h]
  have hF'lenle : F'.length ≤ cr + 2 := by
    rw [hF'len]
    by_cases h : nxt = [] <;> simp [h] <;> omega
  -- new counts equation
  have hcounts' : ∀ i, i < n →
      c'.getD i 0 + decBy dset ((F'.take (cr + 1)).join) i = dominationCount obj i := by
    intro i hi
    rw [htake' (cr + 1) (by omega), htake_all]
    rw [hjoinF, decBy_append, hc' i]
    have h1 := hdecle i hi
    have h2 := inv.counts i hi
    omega
  -- new membership equation
  have hmem' : ∀ i, i < n → (i ∈ F'.join ↔ c'.getD i 0 = 0) := by
    intro i hi
    rw [hjoin', List.mem_append]
    constructor
    · rintro (h | h)
      · have := (inv.mem_iff i hi).mp h
        rw [hc' i]
        omega
      · exact hnz.2 i h
    · intro h
      by_cases hiF : i ∈ F.join
      · exact Or.inl hiF
      · right
        have h1 : c.getD i 0 ≠ 0 := fun hz => hiF ((inv.mem_iff i hi).mpr hz)
        rw [hc' i] at h
        rw [hnxt i]
        have := hdecle i hi
        omega
  refine ⟨hlen1, hlen2, ?_, ?_, ?_, ?_, hcounts', hmem', ?_, ?_, ?_⟩
  -- cr + 1 ≤ F'.length
  · rw [hF'len]
    by_cases h : nxt = [] <;> simp [h] <;> omega
  -- F'.length ≤ cr + 2
  · exact hF'lenle
  -- join nodup
  · rw [hjoin']
    exact List.Nodup.append inv.join_nodup hnz.1
      (fun a haj han => hnotinF a han haj)
  -- join bounded
  · intro i hi
    rw [hjoin', List.mem_append] at hi
    rcases hi with h | h
    · exact inv.join_lt i h
    · exact hnn i h
  -- ranks
  · intro k hk i hik
    by_cases hkF : k < F.length
    · rw [hgetD' k hkF] at hik
      have hiJ : i ∈ F.join := mem_join_iff_getD.mpr ⟨k, hkF, hik⟩
      have hiz : c.getD i 0 = 0 := (inv.mem_iff i (inv.join_lt i hiJ)).mp hiJ
      rw [hrk' i, if_neg (by omega)]
      exact inv.ranks k hkF i hik
    · have hne : nxt ≠ [] := by
        intro hE
        rw [hF'len, hE] at hk
        simp at hk
        omega
      have hkeq : k = F.length := by
        rw [hF'len, if_neg hne] at hk
        omega
      have hik' : i ∈ nxt := by
        rw [hF'] at hik
        rw [if_neg hne, hkeq] at hik
        rwa [getD_append_len [] F nxt] at hik
      rw [hrk' i, if_pos ((hnxt i).mp hik')]
      omega
  -- earlier
  · intro k hk i hik j hj hdom
    by_cases hkF : k < F.length
    · rw [hgetD' k hkF] at hik
      rw [htake' k (by omega)]
      exact inv.earlier k hkF i hik j hj hdom
    · have hne : nxt ≠ [] := by
        intro hE
        rw [hF'len, hE] at hk
        simp at hk
        omega
      have hkeq : k = F.length := by
        rw [hF'len, if_neg hne] at hk
        omega
      have hik' : i ∈ nxt := by
        rw [hF'] at hik
        rw [if_neg hne, hkeq] at hik
        rwa [getD_append_len [] F nxt] at hik
      have hi : i < n := hnn i hik'
      have hcz : c'.getD i 0 = 0 := hnz.2 i hik'
      have hcov : decBy dset (F.join) i = dominationCount obj i := by
        have := hcounts' i hi
        rw [htake' (cr + 1) (by omega), htake_all] at this
        omega
      have hjF : j ∈ F.join :=
        po.covered_of_decBy_eq inv.join_nodup hi hcov hj hdom
      rw [htake' k (by omega), hkeq, List.take_length]
      exact hjF
  -- witnessed
  · intro k hk0 hk i hik
    by_cases hkF : k < F.length
    · rw [hgetD' k hkF] at hik
      have hk1 : k - 1 < F.length := by omega
      rw [hgetD' (k - 1) hk1]
      exact inv.witnessed k hk0 hkF i hik
    · have hne : nxt ≠ [] := by
        intro hE
        rw [hF'len, hE] at hk
        simp at hk
        omega
      have hkeq : k = F.length := by
        rw [hF'len, if_neg hne] at hk
        omega
      have hik' : i ∈ nxt := by
        rw [hF'] at hik
        rw [if_neg hne, hkeq] at hik
        rwa [getD_append_len [] F nxt] at hik
      have h1 := (hnxt i).mp hik'
      have hpos : 0 < decBy dset f i := by omega
      rcases po.decBy_pos_witness hpos with ⟨q, hqf, hqd⟩
      refine ⟨q, ?_, hqd⟩
      have hcr1 : k - 1 = cr := by omega
      rw [hcr1, hgetD' cr hcr]
      exact hqf

theorem whileLoop_lt {dset : List (List ℕ)} {F : List (List ℕ)} {cr : ℕ}
    {c rk : List ℕ} (fuel : ℕ) (h : cr < F.length) :
    whileLoop dset (fuel + 1) F cr c rk =
      whileLoop dset fuel
        (if (processFront dset (cr + 1) (F.getD cr []) c rk []).2.2 = [] then F
          else F ++ [(processFront dset (cr + 1) (F.getD cr []) c rk []).2.2])
        (cr + 1)
        (processFront dset (cr + 1) (F.getD cr []) c rk []).1
        (processFront dset (cr + 1) (F.getD cr []) c rk []).2.1 := by
  simp only [whileLoop]
  rw [if_pos h]

theorem whileLoop_ge {dset : List (List ℕ)} {F : List (List ℕ)} {cr : ℕ}
    {c rk : List ℕ} (fuel : ℕ) (h : ¬ cr < F.length) :
    whileLoop dset (fuel + 1) F cr c rk = some (F, rk) := by
  simp only [whileLoop]
  rw [if_neg h]

/-- When the loop exits normally, the invariant holds of the final state,
with every front processed. -/
theorem whileLoop_inv_final {obj : ObjMatrix} {dset : List (List ℕ)}
    {dcount : List ℕ} (po : PhaseOut obj dset dcount) :
    ∀ (fuel : ℕ) (F : List (List ℕ)) (cr : ℕ) (c rk : List ℕ)
      (Fo : List (List ℕ)) (rko : List ℕ),
      LoopInv obj dset F cr c rk →
      whileLoop dset fuel F cr c rk = some (Fo, rko) →
      ∃ co, LoopInv obj dset Fo Fo.length co rko := by
  intro fuel
  induction fuel with
  | zero =>
      intro F cr c rk Fo rko hinv hl
      exact absurd hl (by simp [whileLoop])
  | succ fuel ih =>
      intro F cr c rk Fo rko hinv hl
      by_cases hcr : cr < F.length
      · rw [whileLoop_lt fuel hcr] at hl
        exact ih _ _ _ _ _ _ (loopInv_step po hinv hcr rfl) hl
      · rw [whileLoop_ge fuel hcr] at hl
        have hcr' : cr = F.length := Nat.le_antisymm hinv.cr_le (Nat.le_of_not_lt hcr)
        have hpair : (F, rk) = (Fo, rko) := Option.some.inj hl
        have h1 : F = Fo := congrArg Prod.fst hpair
        have h2 : rk = rko := congrArg Prod.snd hpair
        subst h1
        subst h2
        rw [hcr'] at hinv
        exact ⟨c, hinv⟩

/-- The fuel bound of the embedded while loop is never reached. -/
theorem whileLoop_ne_none (dset : List (List ℕ)) :
    ∀ (fuel : ℕ) (F : List (List ℕ)) (cr : ℕ) (c rk : List ℕ),
      F.length ≤ cr + 1 →
      F.length - cr + c.sum < fuel →
      ∃ out, whileLoop dset fuel F cr c rk = some out := by
  intro fuel
  induction fuel with
  | zero =>
      intro F cr c rk h1 h2
      omega
  | succ fuel ih =>
      intro F cr c rk h1 h2
      by_cases hcr : cr < F.length
      · have hFlen : F.length = cr + 1 := Nat.le_antisymm h1 (Nat.succ_le_of_lt hcr)
        rw [whileLoop_lt fuel hcr]
        have hsum := processFront_sum dset (cr + 1) (F.getD cr []) c rk []
        rw [List.length_nil] at hsum
        by_cases hnx : (processFront dset (cr + 1) (F.getD cr []) c rk []).2.2 = []
        · rw [if_pos hnx]
          exact ih F (cr + 1) _ _ (by omega) (by omega)
        · rw [if_neg hnx]
          have hpos : 0 < (processFront dset (cr + 1) (F.getD cr []) c rk []).2.2.length :=
            List.length_pos.mpr hnx
          have happ : (F ++ [(processFront dset (cr + 1) (F.getD cr []) c rk []).2.2]).length
              = F.length + 1 := by
            simp
          exact ih _ (cr + 1) _ _ (by omega) (by omega)
      · exact ⟨(F, rk), whileLoop_ge fuel hcr⟩

/-- If index-level dominance is transitive (true for real-valued
matrices), the exit invariant forces every candidate into some front. -/
theorem loopInv_complete {obj : ObjMatrix} {dset : List (List ℕ)}
    {dcount : List ℕ} {Fo : List (List ℕ)} {co rko : List ℕ}
    (po : PhaseOut obj dset dcount)
    (inv : LoopInv obj dset Fo Fo.length co rko)
    (htr : ∀ a b c, a < obj.length → b < obj.length → c < obj.length →
      Dom obj a b = true → Dom obj b c = true → Dom obj a c = true) :
    ∀ i, i < obj.length → i ∈ Fo.join := by
  by_contra hc
  push_neg at hc
  rcases hc with ⟨i0, hi0, hni0⟩
  have hUmem : ∀ i, i ∈ (List.range obj.length).filter
      (fun i => decide (i ∉ Fo.join)) ↔ i < obj.length ∧ i ∉ Fo.join := by
    intro i
    rw [List.mem_filter, List.mem_range]
    simp
  have hUne : (List.range obj.length).filter (fun i => decide (i ∉ Fo.join)) ≠ [] := by
    intro h
    have := (hUmem i0).mpr ⟨hi0, hni0⟩
    rw [h] at this
    exact absurd this (by simp)
  rcases exists_min_of_irrefl_trans (fun a b => Dom obj a b)
      ((List.range obj.length).filter (fun i => decide (i ∉ Fo.join))).length
      ((List.range obj.length).filter (fun i => decide (i ∉ Fo.join)))
      (Nat.le_refl _) hUne
      (fun a _ => Dom_irrefl obj a)
      (fun a b c ha hb hc' hab hbc =>
        htr a b c ((hUmem a).mp ha).1 ((hUmem b).mp hb).1 ((hUmem c).mp hc').1 hab hbc)
    with ⟨m, hmU, hmin⟩
  rcases (hUmem m).mp hmU with ⟨hm, hmJ⟩
  have hcm : co.getD m 0 ≠ 0 := fun hz => hmJ ((inv.mem_iff m hm).mpr hz)
  have hcount := inv.counts m hm
  rw [List.take_length] at hcount
  have hex : ∃ j, j < obj.length ∧ Dom obj j m = true ∧ j ∉ Fo.join := by
    by_contra hall
    push_neg at hall
    have hsub : ((List.range obj.length).filter (fun q => Dom obj q m)).Subperm
        (Fo.join.filter (fun q => decide (m ∈ dset.getD q []))) := by
      apply List.subperm_of_subset ((List.nodup_range _).filter _)
      intro q hq
      rcases List.mem_filter.mp hq with ⟨hqr, hqd⟩
      have hql := List.mem_range.mp hqr
      have hqm : q ≠ m := by
        rintro rfl
        rw [Dom_irrefl] at hqd
        exact absurd hqd (by simp)
      have hqJ : q ∈ Fo.join := hall q hql hqd
      refine List.mem_filter.mpr ⟨hqJ, ?_⟩
      simp only [decide_eq_true_eq]
      exact (po.row_mem q m).mpr ⟨hql, hm, hqm, hqd⟩
    have h1 := hsub.length_le
    rw [← po.decBy_eq] at h1
    have h2 : dominationCount obj m ≤ decBy dset Fo.join m := h1
    omega
  rcases hex with ⟨j, hjl, hjd, hjJ⟩
  have hjU := (hUmem j).mpr ⟨hjl, hjJ⟩
  have := hmin j hjU
  rw [hjd] at this
  exact absurd this (by simp)

/-! ### Top-level glue -/

theorem getRow_mem {obj : ObjMatrix} {p : ℕ} (hp : p < obj.length) :
    getRow obj p ∈ obj := by
  unfold getRow
  rw [List.getD_eq_getElem _ _ hp]
  exact List.getElem_mem _

/-- In the non-empty case, a successful sort yields the exit invariant. -/
theorem fnds_ok_elim {obj : ObjMatrix} {res : NonDominatedSortResult}
    (hne : ¬ obj.length = 0)
    (h : fast_non_dominated_sort obj = .ok res) :
    ∃ dset dcount, PhaseOut obj dset dcount ∧
      ∃ co, LoopInv obj dset res.fronts res.fronts.length co res.ranks := by
  unfold fast_non_dominated_sort at h
  rw [if_neg hne] at h
  cases hb : buildPhase obj (List.range obj.length) with
  | error e =>
      rw [hb] at h
      exact absurd h (by simp)
  | ok pr =>
      obtain ⟨dset, dcount⟩ := pr
      rw [hb] at h
      simp only [] at h
      by_cases hff : (List.range obj.length).filter
          (fun i => decide (dcount.getD i 0 = 0)) = []
      · rw [if_pos hff] at h
        exact absurd h (by simp)
      · rw [if_neg hff] at h
        cases hw : whileLoop dset (dcount.sum + 2)
            [(List.range obj.length).filter (fun i => decide (dcount.getD i 0 = 0))]
            0 dcount (List.replicate obj.length 0) with
        | none =>
            rw [hw] at h
            exact absurd h (by simp)
        | some out =>
            obtain ⟨fronts, ranks⟩ := out
            rw [hw] at h
            have hres : res = ⟨fronts, ranks⟩ := (Except.ok.inj h).symm
            subst hres
            have po := phaseOut_of_buildPhase hb
            rcases whileLoop_inv_final po _ _ _ _ _ _ _ (loopInv_init po) hw with ⟨co, hinv⟩
            exact ⟨dset, dcount, po, co, hinv⟩

/-- The shape-mismatch error occurs exactly when two rows differ in
length. -/
theorem fnds_shape_iff (obj : ObjMatrix) :
    fast_non_dominated_sort obj = .error shapeErrMsg ↔
      ∃ p q, p < obj.length ∧ q < obj.length ∧
        (getRow obj p).length ≠ (getRow obj q).length := by
  by_cases hne : obj.length = 0
  · unfold fast_non_dominated_sort
    rw [if_pos hne]
    constructor
    · intro h
      exact absurd h (by simp)
    · rintro ⟨p, q, hp, -, -⟩
      omega
  · constructor
    · intro h
      unfold fast_non_dominated_sort at h
      rw [if_neg hne] at h
      rcases buildPhase_cases obj (List.range obj.length) with
        ⟨herr, p, hpm, q, hqm, -, hql⟩ | ⟨dset, dcount, hok, -, -, -, hall⟩
      · exact ⟨p, q, List.mem_range.mp hpm, List.mem_range.mp hqm, hql⟩
      · rw [hok] at h
        simp only [] at h
        by_cases hff : (List.range obj.length).filter
            (fun i => decide (dcount.getD i 0 = 0)) = []
        · rw [if_pos hff] at h
          have : frontErrMsg = shapeErrMsg := Except.error.inj h
          exact absurd this (by decide)
        · rw [if_neg hff] at h
          cases hw : whileLoop dset (dcount.sum + 2)
              [(List.range obj.length).filter (fun i => decide (dcount.getD i 0 = 0))]
              0 dcount (List.replicate obj.length 0) with
          | none =>
              rcases whileLoop_ne_none dset (dcount.sum + 2)
                  [(List.range obj.length).filter (fun i => decide (dcount.getD i 0 = 0))]
                  0 dcount (List.replicate obj.length 0)
                  (by simp) (by simp; omega) with ⟨out, hout⟩
              rw [hout] at hw
              exact absurd hw (by simp)
          | some out =>
              obtain ⟨fronts, ranks⟩ := out
              rw [hw] at h
              exact absurd h (by simp)
    · rintro ⟨p, q, hp, hq, hql⟩
      unfold fast_non_dominated_sort
      rw [if_neg hne]
      rcases buildPhase_cases obj (List.range obj.length) with
        ⟨herr, -⟩ | ⟨dset, dcount, hok, -, -, -, hall⟩
      · rw [herr]
      · exfalso
        by_cases hpq : q = p
        · exact hql (by rw [hpq])
        · exact hql (hall p (List.mem_range.mpr hp) q (List.mem_range.mpr hq) hpq)

/-- On a non-empty equal-row-length matrix the sort either throws the
empty-first-front error (exactly when every candidate is dominated) or
returns normally — there is no other behaviour, and in particular no
check of any post-propagation condition. -/
theorem fnds_eqlen_cases (obj : ObjMatrix) (hne : ¬ obj.length = 0) (M : ℕ)
    (hlen : ∀ r ∈ obj, r.length = M) :
    ((∀ i, i < obj.length → dominationCount obj i ≠ 0) ∧
        fast_non_dominated_sort obj = .error frontErrMsg) ∨
      ((∃ i, i < obj.length ∧ dominationCount obj i = 0) ∧
        ∃ res, fast_non_dominated_sort obj = .ok res) := by
  rcases buildPhase_cases obj (List.range obj.length) with
    ⟨herr, p, hpm, q, hqm, -, hql⟩ | ⟨dset, dcount, hok, -, -, -, -⟩
  · exfalso
    have h1 := hlen _ (getRow_mem (List.mem_range.mp hpm))
    have h2 := hlen _ (getRow_mem (List.mem_range.mp hqm))
    exact hql (h1.trans h2.symm)
  · have po := phaseOut_of_buildPhase hok
    have hmemf : ∀ i, i ∈ (List.range obj.length).filter
        (fun i => decide (dcount.getD i 0 = 0)) ↔
        i < obj.length ∧ dominationCount obj i = 0 := by
      intro i
      rw [List.mem_filter, List.mem_range]
      constructor
      · rintro ⟨hi, hz⟩
        rw [← po.dcount_at i hi]
        exact ⟨hi, by simpa using hz⟩
      · rintro ⟨hi, hz⟩
        rw [← po.dcount_at i hi] at hz
        exact ⟨hi, by simpa using hz⟩
    by_cases hff : (List.range obj.length).filter
        (fun i => decide (dcount.getD i 0 = 0)) = []
    · left
      constructor
      · intro i hi hz
        have : i ∈ (List.range obj.length).filter
            (fun i => decide (dcount.getD i 0 = 0)) := (hmemf i).mpr ⟨hi, hz⟩
        rw [hff] at this
        exact absurd this (by simp)
      · unfold fast_non_dominated_sort
        rw [if_neg hne, hok]
        simp only []
        rw [if_pos hff]
    · right
      constructor
      · rcases List.exists_mem_of_ne_nil _ hff with ⟨i, hi⟩
        rcases (hmemf i).mp hi with ⟨h1, h2⟩
        exact ⟨i, h1, h2⟩
      · rcases whileLoop_ne_none dset (dcount.sum + 2)
            [(List.range obj.length).filter (fun i => decide (dcount.getD i 0 = 0))]
            0 dcount (List.replicate obj.length 0)
            (by simp) (by simp; omega) with ⟨out, hout⟩
        obtain ⟨fronts, ranks⟩ := out
        refine ⟨⟨fronts, ranks⟩, ?_⟩
        unfold fast_non_dominated_sort
        rw [if_neg hne, hok]
        simp only []
        rw [if_neg hff, hout]

/-! ### Real-valued matrices -/

theorem getRow_map_realRow (qobj : List (List ℚ)) (p : ℕ) :
    getRow (qobj.map realRow) p = realRow (qobj.getD p []) := by
  by_cases hp : p < qobj.length
  · unfold getRow
    rw [List.getD_eq_getElem _ _ (by simpa using hp), List.getD_eq_getElem _ _ hp]
    simp
  · unfold getRow
    rw [getD_default_of_le [] (by simpa using Nat.le_of_not_lt hp),
      getD_default_of_le [] (by simpa using Nat.le_of_not_lt hp)]
    rfl

theorem qrow_len {qobj : List (List ℚ)} {M : ℕ} (hlen : ∀ r ∈ qobj, r.length = M)
    {p : ℕ} (hp : p < qobj.length) : (qobj.getD p []).length = M := by
  rw [List.getD_eq_getElem _ _ hp]
  exact hlen _ (List.getElem_mem _)

theorem Dom_real_iff {qobj : List (List ℚ)} {M : ℕ} (hlen : ∀ r ∈ qobj, r.length = M)
    {p q : ℕ} (hp : p < qobj.length) (hq : q < qobj.length) :
    (Dom (qobj.map realRow) p q = true ↔
      ParetoDominates (qobj.getD p []) (qobj.getD q [])) := by
  unfold Dom
  rw [getRow_map_realRow, getRow_map_realRow]
  exact dominatesLoop_real_iff _ _ ((qrow_len hlen hp).trans (qrow_len hlen hq).symm)

theorem Dom_real_trans {qobj : List (List ℚ)} {M : ℕ}
    (hlen : ∀ r ∈ qobj, r.length = M) :
    ∀ a b c, a < (qobj.map realRow).length → b < (qobj.map realRow).length →
      c < (qobj.map realRow).length →
      Dom (qobj.map realRow) a b = true → Dom (qobj.map realRow) b c = true →
      Dom (qobj.map realRow) a c = true := by
  intro a b c ha hb hc h1 h2
  rw [List.length_map] at ha hb hc
  rw [Dom_real_iff hlen ha hb] at h1
  rw [Dom_real_iff hlen hb hc] at h2
  rw [Dom_real_iff hlen ha hc]
  exact paretoDominates_trans h1 h2

theorem map_realRow_len {qobj : List (List ℚ)} {M : ℕ}
    (hlen : ∀ r ∈ qobj, r.length = M) :
    ∀ r ∈ qobj.map realRow, r.length = M := by
  intro r hr
  rcases List.mem_map.mp hr with ⟨s, hs, rfl⟩
  rw [realRow, List.length_map]
  exact hlen s hs

theorem not_mem_take_join {F : List (List ℕ)} (hnd : F.join.Nodup) {k k' : ℕ}
    (hkk : k ≤ k') (hk' : k' < F.length) {j : ℕ} (hj : j ∈ F.getD k' []) :
    j ∉ (F.take k).join := by
  have hdecomp : F.join = (F.take k).join ++ (F.drop k).join := by
    conv_rhs => rw [← List.join_append, List.take_append_drop]
  rw [hdecomp, List.nodup_append] at hnd
  intro hmem
  apply hnd.2.2 hmem
  have hlt : k' - k < (F.drop k).length := by
    rw [List.length_drop]
    omega
  have hgd : (F.drop k).getD (k' - k) [] = F.getD k' [] := by
    rw [List.getD_eq_getElem _ _ hlt, List.getD_eq_getElem _ _ hk']
    rw [List.getElem_drop]
    congr 1
    omega
  exact mem_join_iff_getD.mpr ⟨k' - k, hlt, by rw [hgd]; exact hj⟩

/-! ## Claim theorems for the dominance ranker -/

/-- C3: the ranker's dominance test returns true on equal-length
real-valued rows exactly when every objective is no worse and some
objective is strictly better; equal rows dominate neither way; and the
pairwise scan skips the self-pair, so dominance is never evaluated for a
candidate against itself. -/
theorem C3_dominance_test (P Q : List ℚ) (hlen : P.length = Q.length) :
    (dominates (realRow P) (realRow Q) = .ok true ↔ ParetoDominates P Q) ∧
      dominates (realRow P) (realRow P) = .ok false ∧
      (∀ (obj : ObjMatrix) (p : ℕ) (qs : List ℕ),
        pairScan obj p (p :: qs) = pairScan obj p qs) := by
  refine ⟨?_, ?_, ?_⟩
  · have hlen' : (realRow P).length = (realRow Q).length := by
      unfold realRow
      simp [hlen]
    rw [dominates_eqlen _ _ hlen']
    constructor
    · intro h
      exact (dominatesLoop_real_iff P Q hlen).mp (Except.ok.inj h)
    · intro h
      rw [(dominatesLoop_real_iff P Q hlen).mpr h]
  · rw [dominates_eqlen _ _ rfl, dominatesLoop_self]
  · intro obj p qs
    simp [pairScan]

/-- C3 witness at `P = [1,2]`, `Q = [1,3]`. -/
theorem C3_dominance_test_witness :
    ([1, 2] : List ℚ).length = ([1, 3] : List ℚ).length ∧
      ((dominates (realRow [1, 2]) (realRow [1, 3]) = .ok true ↔
          ParetoDominates [1, 2] [1, 3]) ∧
        dominates (realRow [1, 2]) (realRow [1, 2]) = .ok false ∧
        (∀ (obj : ObjMatrix) (p : ℕ) (qs : List ℕ),
          pairScan obj p (p :: qs) = pairScan obj p qs)) :=
  ⟨by decide, C3_dominance_test [1, 2] [1, 3] (by decide)⟩

/-- C9: `fast_non_dominated_sort` raises the shape-mismatch error if and
only if the input matrix has two rows of differing length; with rows of
equal length that error is never raised. -/
theorem C9_shape_error (obj : ObjMatrix) :
    fast_non_dominated_sort obj = .error shapeErrMsg ↔
      ∃ p q, p < obj.length ∧ q < obj.length ∧
        (getRow obj p).length ≠ (getRow obj q).length :=
  fnds_shape_iff obj

/-- C1: on any real-valued matrix with rows of identical length on which
the sort returns a result, every index below N lies in exactly one front
(the fronts are globally duplicate-free and jointly exhaust `[0,N)`),
and each candidate's rank is the index of the front containing it. -/
theorem C1_partition (qobj : List (List ℚ)) (M : ℕ)
    (hlen : ∀ r ∈ qobj, r.length = M) (res : NonDominatedSortResult)
    (hok : fast_non_dominated_sort (qobj.map realRow) = .ok res) :
    res.fronts.join.Nodup ∧
      (∀ i, i ∈ res.fronts.join ↔ i < qobj.length) ∧
      (∀ k, k < res.fronts.length → ∀ i ∈ res.fronts.getD k [],
        res.ranks.getD i 0 = k) := by
  by_cases hqn : qobj.length = 0
  · have hres : res = ⟨[], []⟩ := by
      unfold fast_non_dominated_sort at hok
      rw [if_pos (by simpa using hqn)] at hok
      exact (Except.ok.inj hok).symm
    subst hres
    refine ⟨by simp, ?_, by simp⟩
    intro i
    simp [hqn]
  · have hne : ¬ (qobj.map realRow).length = 0 := by simpa using hqn
    rcases fnds_ok_elim hne hok with ⟨dset, dcount, po, co, inv⟩
    refine ⟨inv.join_nodup, ?_, inv.ranks⟩
    intro i
    constructor
    · intro h
      have := inv.join_lt i h
      rwa [List.length_map] at this
    · intro h
      exact loopInv_complete po inv (Dom_real_trans hlen) i (by simpa using h)

/-- C1 witness: the spec's round-trip scenario. -/
theorem C1_partition_witness :
    (∀ r ∈ ([[1, 5], [2, 3], [3, 1], [4, 4]] : List (List ℚ)), r.length = 2) ∧
      fast_non_dominated_sort
          (([[1, 5], [2, 3], [3, 1], [4, 4]] : List (List ℚ)).map realRow) =
        .ok ⟨[[0, 1, 2], [3]], [0, 0, 0, 1]⟩ ∧
      (NonDominatedSortResult.fronts ⟨[[0, 1, 2], [3]], [0, 0, 0, 1]⟩).join.Nodup ∧
      (∀ i, i ∈ (NonDominatedSortResult.fronts ⟨[[0, 1, 2], [3]], [0, 0, 0, 1]⟩).join ↔
        i < ([[1, 5], [2, 3], [3, 1], [4, 4]] : List (List ℚ)).length) ∧
      (∀ k, k < (NonDominatedSortResult.fronts ⟨[[0, 1, 2], [3]], [0, 0, 0, 1]⟩).length →
        ∀ i ∈ (NonDominatedSortResult.fronts ⟨[[0, 1, 2], [3]], [0, 0, 0, 1]⟩).getD k [],
          (NonDominatedSortResult.ranks ⟨[[0, 1, 2], [3]], [0, 0, 0, 1]⟩).getD i 0 = k) := by
  refine ⟨by decide, by rfl, ?_⟩
  exact C1_partition [[1, 5], [2, 3], [3, 1], [4, 4]] 2 (by decide) _ (by rfl)

/-- C2: on any real-valued matrix with at least one row, all of identical
length, on which the sort returns a result, a candidate is in front 0
exactly when no other candidate Pareto-dominates it. -/
theorem C2_front_zero (qobj : List (List ℚ)) (M : ℕ) (hN : ¬ qobj.length = 0)
    (hlen : ∀ r ∈ qobj, r.length = M) (res : NonDominatedSortResult)
    (hok : fast_non_dominated_sort (qobj.map realRow) = .ok res) :
    ∀ i, i < qobj.length →
      (i ∈ res.fronts.getD 0 [] ↔
        ∀ q, q < qobj.length → q ≠ i →
          ¬ ParetoDominates (qobj.getD q []) (qobj.getD i [])) := by
  have hne : ¬ (qobj.map realRow).length = 0 := by simpa using hN
  rcases fnds_ok_elim hne hok with ⟨dset, dcount, po, co, inv⟩
  have hnlen : (qobj.map realRow).length = qobj.length := List.length_map _ _
  intro i hi
  constructor
  · intro hmem q hq hqi hP
    by_cases hF0 : 0 < res.fronts.length
    · have hDom : Dom (qobj.map realRow) q i = true :=
        (Dom_real_iff hlen hq hi).mpr hP
      have := inv.earlier 0 hF0 i hmem q (by rw [hnlen]; exact hq) hDom
      simp at this
    · rw [getD_default_of_le [] (by omega)] at hmem
      exact absurd hmem (by simp)
  · intro hno
    have hz : dominationCount (qobj.map realRow) i = 0 := by
      rw [dominationCount_eq_zero_iff]
      intro j hj
      rw [hnlen] at hj
      by_cases hji : j = i
      · rw [hji]
        exact Dom_irrefl _ _
      · cases hD : Dom (qobj.map realRow) j i
        · rfl
        · exact absurd ((Dom_real_iff hlen hj hi).mp hD) (hno j hj hji)
    have hcz : co.getD i 0 = 0 := by
      have := inv.counts i (by rw [hnlen]; exact hi)
      omega
    have hij : i ∈ res.fronts.join :=
      (inv.mem_iff i (by rw [hnlen]; exact hi)).mpr hcz
    rcases mem_join_iff_getD.mp hij with ⟨k, hk, hik⟩
    cases k with
    | zero => exact hik
    | succ k' =>
        exfalso
        rcases inv.witnessed (k' + 1) (by omega) hk i hik with ⟨j, hjm, hjD⟩
        have hjJ : j ∈ res.fronts.join :=
          mem_join_iff_getD.mpr ⟨k', by omega, by simpa using hjm⟩
        have hjn : j < qobj.length := by
          have := inv.join_lt j hjJ
          rwa [hnlen] at this
        have hji : j ≠ i := by
          rintro rfl
          rw [Dom_irrefl] at hjD
          exact absurd hjD (by simp)
        exact hno j hjn hji ((Dom_real_iff hlen hjn hi).mp hjD)

/-- C2 witness: the symmetry scenario plus the staircase scenario rolled
into the round-trip matrix. -/
theorem C2_front_zero_witness :
    (¬ ([[1, 5], [2, 3], [3, 1], [4, 4]] : List (List ℚ)).length = 0) ∧
      (∀ r ∈ ([[1, 5], [2, 3], [3, 1], [4, 4]] : List (List ℚ)), r.length = 2) ∧
      fast_non_dominated_sort
          (([[1, 5], [2, 3], [3, 1], [4, 4]] : List (List ℚ)).map realRow) =
        .ok ⟨[[0, 1, 2], [3]], [0, 0, 0, 1]⟩ ∧
      (∀ i, i < ([[1, 5], [2, 3], [3, 1], [4, 4]] : List (List ℚ)).length →
        (i ∈ (NonDominatedSortResult.fronts ⟨[[0, 1, 2], [3]], [0, 0, 0, 1]⟩).getD 0 [] ↔
          ∀ q, q < ([[1, 5], [2, 3], [3, 1], [4, 4]] : List (List ℚ)).length → q ≠ i →
            ¬ ParetoDominates
              (([[1, 5], [2, 3], [3, 1], [4, 4]] : List (List ℚ)).getD q [])
              (([[1, 5], [2, 3], [3, 1], [4, 4]] : List (List ℚ)).getD i []))) := by
  refine ⟨by decide, by decide, by rfl, ?_⟩
  exact C2_front_zero [[1, 5], [2, 3], [3, 1], [4, 4]] 2 (by decide) (by decide) _ (by rfl)

/-- C5: on any real-valued matrix with rows of identical length on which
the sort returns a result, no member of front `k` is Pareto-dominated by
a member of a later front, and every member of front `k > 0` is
Pareto-dominated by some member of front `k - 1`. -/
theorem C5_front_order (qobj : List (List ℚ)) (M : ℕ)
    (hlen : ∀ r ∈ qobj, r.length = M) (res : NonDominatedSortResult)
    (hok : fast_non_dominated_sort (qobj.map realRow) = .ok res) :
    (∀ k k', k < k' → k' < res.fronts.length →
      ∀ i ∈ res.fronts.getD k [], ∀ j ∈ res.fronts.getD k' [],
        ¬ ParetoDominates (qobj.getD j []) (qobj.getD i [])) ∧
      (∀ k, 0 < k → k < res.fronts.length →
        ∀ i ∈ res.fronts.getD k [],
          ∃ j ∈ res.fronts.getD (k - 1) [],
            ParetoDominates (qobj.getD j []) (qobj.getD i [])) := by
  by_cases hqn : qobj.length = 0
  · have hres : res = ⟨[], []⟩ := by
      unfold fast_non_dominated_sort at hok
      rw [if_pos (by simpa using hqn)] at hok
      exact (Except.ok.inj hok).symm
    subst hres
    exact ⟨fun k k' hkk hk' => by simp at hk', fun k hk0 hk => by simp at hk⟩
  · have hne : ¬ (qobj.map realRow).length = 0 := by simpa using hqn
    rcases fnds_ok_elim hne hok with ⟨dset, dcount, po, co, inv⟩
    have hnlen : (qobj.map realRow).length = qobj.length := List.length_map _ _
    constructor
    · intro k k' hkk hk' i hik j hjk hP
      have hkF : k < res.fronts.length := by omega
      have hin : i ∈ res.fronts.join := mem_join_iff_getD.mpr ⟨k, hkF, hik⟩
      have hjn : j ∈ res.fronts.join := mem_join_iff_getD.mpr ⟨k', hk', hjk⟩
      have hiq : i < qobj.length := by
        have := inv.join_lt i hin
        rwa [hnlen] at this
      have hjq : j < qobj.length := by
        have := inv.join_lt j hjn
        rwa [hnlen] at this
      have hDom : Dom (qobj.map realRow) j i = true :=
        (Dom_real_iff hlen hjq hiq).mpr hP
      have hjt : j ∈ (res.fronts.take k).join :=
        inv.earlier k hkF i hik j (by rw [hnlen]; exact hjq) hDom
      exact not_mem_take_join inv.join_nodup (Nat.le_of_lt hkk) hk' hjk hjt
    · intro k hk0 hk i hik
      rcases inv.witnessed k hk0 hk i hik with ⟨j, hjm, hjD⟩
      refine ⟨j, hjm, ?_⟩
      have hin : i ∈ res.fronts.join := mem_join_iff_getD.mpr ⟨k, hk, hik⟩
      have hjn : j ∈ res.fronts.join :=
        mem_join_iff_getD.mpr ⟨k - 1, by omega, hjm⟩
      have hiq : i < qobj.length := by
        have := inv.join_lt i hin
        rwa [hnlen] at this
      have hjq : j < qobj.length := by
        have := inv.join_lt j hjn
        rwa [hnlen] at this
      exact (Dom_real_iff hlen hjq hiq).mp hjD

/-- C5 witness: the round-trip staircase matrix. -/
theorem C5_front_order_witness :
    (∀ r ∈ ([[1, 5], [2, 3], [3, 1], [4, 4]] : List (List ℚ)), r.length = 2) ∧
      fast_non_dominated_sort
          (([[1, 5], [2, 3], [3, 1], [4, 4]] : List (List ℚ)).map realRow) =
        .ok ⟨[[0, 1, 2], [3]], [0, 0, 0, 1]⟩ ∧
      ((∀ k k', k < k' →
          k' < (NonDominatedSortResult.fronts ⟨[[0, 1, 2], [3]], [0, 0, 0, 1]⟩).length →
          ∀ i ∈ (NonDominatedSortResult.fronts ⟨[[0, 1, 2], [3]], [0, 0, 0, 1]⟩).getD k [],
          ∀ j ∈ (NonDominatedSortResult.fronts ⟨[[0, 1, 2], [3]], [0, 0, 0, 1]⟩).getD k' [],
            ¬ ParetoDominates
              (([[1, 5], [2, 3], [3, 1], [4, 4]] : List (List ℚ)).getD j [])
              (([[1, 5], [2, 3], [3, 1], [4, 4]] : List (List ℚ)).getD i [])) ∧
        (∀ k, 0 < k →
          k < (NonDominatedSortResult.fronts ⟨[[0, 1, 2], [3]], [0, 0, 0, 1]⟩).length →
          ∀ i ∈ (NonDominatedSortResult.fronts ⟨[[0, 1, 2], [3]], [0, 0, 0, 1]⟩).getD k [],
            ∃ j ∈ (NonDominatedSortResult.fronts
                ⟨[[0, 1, 2], [3]], [0, 0, 0, 1]⟩).getD (k - 1) [],
              ParetoDominates
                (([[1, 5], [2, 3], [3, 1], [4, 4]] : List (List ℚ)).getD j [])
                (([[1, 5], [2, 3], [3, 1], [4, 4]] : List (List ℚ)).getD i []))) := by
  refine ⟨by decide, by rfl, ?_⟩
  exact C5_front_order [[1, 5], [2, 3], [3, 1], [4, 4]] 2 (by decide) _ (by rfl)

/-- C4 counterexample: on `nanCyclePlus` (four rows of equal length 3)
the propagation phase ends with candidates 0, 1 and 2 assigned to no
front, yet `fast_non_dominated_sort` returns a result normally instead of
raising an invariant-violation error — the code contains no
post-propagation unranked-candidate check. -/
theorem C4_counterexample :
    fast_non_dominated_sort nanCyclePlus = .ok ⟨[[3]], [0, 0, 0, 0]⟩ ∧
      (∀ r ∈ nanCyclePlus, r.length = 3) ∧
      (0 : ℕ) ∉ ([[3]] : List (List ℕ)).join := by
  refine ⟨by rfl, by decide, by decide⟩

/-- C4 amended: on a non-empty equal-row-length matrix the sort raises
the invariant-violation (empty-first-front) error precisely when every
candidate's domination count is positive; otherwise it returns a result
normally — in particular no error is raised for candidates left
unassigned after propagation. -/
theorem C4_invariant_error (obj : ObjMatrix) (hne : ¬ obj.length = 0) (M : ℕ)
    (hlen : ∀ r ∈ obj, r.length = M) :
    ((∀ i, i < obj.length → dominationCount obj i ≠ 0) →
        fast_non_dominated_sort obj = .error frontErrMsg) ∧
      ((∃ i, i < obj.length ∧ dominationCount obj i = 0) →
        ∃ res, fast_non_dominated_sort obj = .ok res) := by
  rcases fnds_eqlen_cases obj hne M hlen with ⟨h1, h2⟩ | ⟨h1, h2⟩
  · refine ⟨fun _ => h2, fun hex => ?_⟩
    rcases hex with ⟨i, hi, hz⟩
    exact absurd hz (h1 i hi)
  · refine ⟨fun hall => ?_, fun _ => h2⟩
    rcases h1 with ⟨i, hi, hz⟩
    exact absurd hz (hall i hi)

/-- C4 witness: the NaN 3-cycle takes the error branch. -/
theorem C4_invariant_error_witness :
    (¬ nanCycle.length = 0) ∧ (∀ r ∈ nanCycle, r.length = 3) ∧
      fast_non_dominated_sort nanCycle = .error frontErrMsg :=
  ⟨by decide, by decide,
    (C4_invariant_error nanCycle (by decide) 3 (by decide)).1 (by decide)⟩

/-- Generic `getD`-of-`set` helpers. -/
theorem getD_set_eq_gen {α : Type} (d : α) {l : List α} {i : ℕ} (v : α)
    (h : i < l.length) : (l.set i v).getD i d = v := by
  rw [List.getD_eq_getElem _ _ (by simpa using h)]
  exact List.getElem_set_self _

theorem getD_set_ne_gen {α : Type} (d : α) (l : List α) (v : α) {i j : ℕ}
    (h : i ≠ j) : (l.set i v).getD j d = l.getD j d := by
  simp [List.getD_eq_getElem?_getD, List.getElem?_set_ne h]

theorem innerFill_cons {σ : Type} (M : RngModel σ) (lower upper : ℚ) (n : ℕ)
    (perm : List ℕ) (dim i : ℕ) (js : List ℕ) (pop : Population) (g : σ) :
    innerFill M lower upper n perm dim (i :: js) pop g =
      innerFill M lower upper n perm dim js
        (pop.set i ((pop.getD i []).set dim
          (lower + (((perm.getD i 0 : ℚ) + (M.unitFn g).1) / (n : ℚ)) *
            (upper - lower))))
        (M.unitFn g).2 := rfl

theorem innerFill_shape {σ : Type} (M : RngModel σ) (lower upper : ℚ) (n : ℕ)
    (perm : List ℕ) (dim : ℕ) :
    ∀ (js : List ℕ) (pop : Population) (g : σ),
      (innerFill M lower upper n perm dim js pop g).1.length = pop.length ∧
        ∀ i, ((innerFill M lower upper n perm dim js pop g).1.getD i []).length =
          (pop.getD i []).length := by
  intro js
  induction js with
  | nil => intro pop g; exact ⟨rfl, fun i => rfl⟩
  | cons i' js ih =>
      intro pop g
      rw [innerFill_cons]
      rcases ih (pop.set i' ((pop.getD i' []).set dim
          (lower + (((perm.getD i' 0 : ℚ) + (M.unitFn g).1) / (n : ℚ)) *
            (upper - lower)))) (M.unitFn g).2 with ⟨h1, h2⟩
      constructor
      · rw [h1, List.length_set]
      · intro i
        rw [h2 i]
        by_cases hii : i' = i
        · subst hii
          by_cases hl : i' < pop.length
          · rw [getD_set_eq_gen [] _ hl, List.length_set]
          · rw [List.set_eq_of_length_le (Nat.le_of_not_lt hl)]
        · rw [getD_set_ne_gen [] _ _ hii]

theorem innerFill_other {σ : Type} (M : RngModel σ) (lower upper : ℚ) (n : ℕ)
    (perm : List ℕ) (dim : ℕ) :
    ∀ (js : List ℕ) (pop : Population) (g : σ) (i : ℕ), i ∉ js →
      (innerFill M lower upper n perm dim js pop g).1.getD i [] =
        pop.getD i [] := by
  intro js
  induction js with
  | nil => intro pop g i _; rfl
  | cons i' js ih =>
      intro pop g i hi
      rw [innerFill_cons, ih _ _ i (fun h => hi (List.mem_cons_of_mem _ h))]
      exact getD_set_ne_gen [] _ _ (fun h => hi (h ▸ List.mem_cons_self _ _))

theorem innerFill_dim_other {σ : Type} (M : RngModel σ) (lower upper : ℚ)
    (n : ℕ) (perm : List ℕ) (dim : ℕ) :
    ∀ (js : List ℕ) (pop : Population) (g : σ) (i dim' : ℕ), dim' ≠ dim →
      ((innerFill M lower upper n perm dim js pop g).1.getD i []).getD dim' 0 =
        (pop.getD i []).getD dim' 0 := by
  intro js
  induction js with
  | nil => intro pop g i dim' _; rfl
  | cons i' js ih =>
      intro pop g i dim' hd
      rw [innerFill_cons, ih _ _ i dim' hd]
      by_cases hii : i' = i
      · subst hii
        by_cases hl : i' < pop.length
        · rw [getD_set_eq_gen [] _ hl]
          exact getD_set_ne_gen 0 _ _ (fun h => hd h.symm)
        · rw [List.set_eq_of_length_le (Nat.le_of_not_lt hl)]
      · rw [getD_set_ne_gen [] _ _ hii]

theorem innerFill_entry {σ : Type} (M : RngModel σ) (hU : UnitSpec M)
    (lower upper : ℚ) (n : ℕ) (perm : List ℕ) (dim : ℕ) :
    ∀ (js : List ℕ), js.Nodup → ∀ (pop : Population) (g : σ), ∀ i ∈ js,
      i < pop.length → dim < (pop.getD i []).length →
      ∃ u : ℚ, 0 ≤ u ∧ u < 1 ∧
        ((innerFill M lower upper n perm dim js pop g).1.getD i []).getD dim 0 =
          lower + (((perm.getD i 0 : ℚ) + u) / (n : ℚ)) * (upper - lower) := by
  intro js
  induction js with
  | nil => intro _ pop g i hi; exact absurd hi (by simp)
  | cons i' js ih =>
      intro hnd pop g i hi hilen hidim
      have hnd' : js.Nodup := hnd.of_cons
      rcases List.mem_cons.mp hi with rfl | hi'
      · have hni : i ∉ js := by
          intro hmem
          exact (List.nodup_cons.mp hnd).1 hmem
        rw [innerFill_cons, innerFill_other M lower upper n perm dim js _ _ i hni]
        refine ⟨(M.unitFn g).1, (hU g).1, (hU g).2, ?_⟩
        rw [getD_set_eq_gen [] _ hilen, getD_set_eq_gen 0 _ hidim]
      · rw [innerFill_cons]
        refine ih hnd' _ _ i hi' ?_ ?_
        · rw [List.length_set]
          exact hilen
        · by_cases hii : i' = i
          · subst hii
            rw [getD_set_eq_gen [] _ hilen, List.length_set]
            exact hidim
          · rw [getD_set_ne_gen [] _ _ hii]
            exact hidim

theorem outerFill_cons {σ : Type} (M : RngModel σ) (params : OptimizationParameters)
    (n dim : ℕ) (dims : List ℕ) (pop : Population) (g : σ) :
    outerFill M params n (dim :: dims) pop g =
      outerFill M params n dims
        (innerFill M (params.variable_lower_bounds.getD dim 0)
          (params.variable_upper_bounds.getD dim 1) n
          (M.shuffleFn (List.range n) g).1 dim (List.range n) pop
          (M.shuffleFn (List.range n) g).2).1
        (innerFill M (params.variable_lower_bounds.getD dim 0)
          (params.variable_upper_bounds.getD dim 1) n
          (M.shuffleFn (List.range n) g).1 dim (List.range n) pop
          (M.shuffleFn (List.range n) g).2).2 := rfl

theorem outerFill_shape {σ : Type} (M : RngModel σ) (params : OptimizationParameters)
    (n : ℕ) :
    ∀ (dims : List ℕ) (pop : Population) (g : σ),
      (outerFill M params n dims pop g).1.length = pop.length ∧
        ∀ i, ((outerFill M params n dims pop g).1.getD i []).length =
          (pop.getD i []).length := by
  intro dims
  induction dims with
  | nil => intro pop g; exact ⟨rfl, fun i => rfl⟩
  | cons dim dims ih =>
      intro pop g
      rw [outerFill_cons]
      rcases ih (innerFill M (params.variable_lower_bounds.getD dim 0)
          (params.variable_upper_bounds.getD dim 1) n
          (M.shuffleFn (List.range n) g).1 dim (List.range n) pop
          (M.shuffleFn (List.range n) g).2).1
        (innerFill M (params.variable_lower_bounds.getD dim 0)
          (params.variable_upper_bounds.getD dim 1) n
          (M.shuffleFn (List.range n) g).1 dim (List.range n) pop
          (M.shuffleFn (List.range n) g).2).2 with ⟨h1, h2⟩
      rcases innerFill_shape M (params.variable_lower_bounds.getD dim 0)
          (params.variable_upper_bounds.getD dim 1) n
          (M.shuffleFn (List.range n) g).1 dim (List.range n) pop
          (M.shuffleFn (List.range n) g).2 with ⟨h3, h4⟩
      exact ⟨h1.trans h3, fun i => (h2 i).trans (h4 i)⟩

theorem outerFill_dim_other {σ : Type} (M : RngModel σ)
    (params : OptimizationParameters) (n : ℕ) :
    ∀ (dims : List ℕ) (pop : Population) (g : σ) (i dim' : ℕ), dim' ∉ dims →
      ((outerFill M params n dims pop g).1.getD i []).getD dim' 0 =
        (pop.getD i []).getD dim' 0 := by
  intro dims
  induction dims with
  | nil => intro pop g i dim' _; rfl
  | cons dim dims ih =>
      intro pop g i dim' hd
      rw [outerFill_cons, ih _ _ i dim' (fun h => hd (List.mem_cons_of_mem _ h))]
      exact innerFill_dim_other M _ _ n _ dim (List.range n) pop _ i dim'
        (fun h => hd (h ▸ List.mem_cons_self _ _))

theorem outerFill_entry {σ : Type} (M : RngModel σ) (hS : ShuffleSpec M)
    (hU : UnitSpec M) (params : OptimizationParameters) (n D : ℕ) :
    ∀ (dims : List ℕ), dims.Nodup → ∀ (pop : Population) (g : σ),
      pop.length = n → (∀ i, i < n → (pop.getD i []).length = D) →
      (∀ d ∈ dims, d < D) →
      ∀ dim ∈ dims, ∃ p : List ℕ, p.Perm (List.range n) ∧
        ∀ i, i < n → ∃ u : ℚ, 0 ≤ u ∧ u < 1 ∧
          ((outerFill M params n dims pop g).1.getD i []).getD dim 0 =
            params.variable_lower_bounds.getD dim 0 +
              (((p.getD i 0 : ℚ) + u) / (n : ℚ)) *
                (params.variable_upper_bounds.getD dim 1 -
                  params.variable_lower_bounds.getD dim 0) := by
  intro dims
  induction dims with
  | nil =>
      intro _ pop g _ _ _ dim hdim
      exact absurd hdim (by simp)
  | cons dim0 dims ih =>
      intro hnd pop g hplen hrows hdlt dim hdim
      rw [outerFill_cons]
      rcases innerFill_shape M (params.variable_lower_bounds.getD dim0 0)
          (params.variable_upper_bounds.getD dim0 1) n
          (M.shuffleFn (List.range n) g).1 dim0 (List.range n) pop
          (M.shuffleFn (List.range n) g).2 with ⟨hf1, hf2⟩
      rcases List.mem_cons.mp hdim with rfl | hdim'
      · refine ⟨(M.shuffleFn (List.range n) g).1, hS _ _, ?_⟩
        intro i hi
        have hnotin : dim ∉ dims := (List.nodup_cons.mp hnd).1
        rw [outerFill_dim_other M params n dims _ _ i dim hnotin]
        exact innerFill_entry M hU (params.variable_lower_bounds.getD dim 0)
          (params.variable_upper_bounds.getD dim 1) n
          (M.shuffleFn (List.range n) g).1 dim (List.range n)
          (List.nodup_range n) pop (M.shuffleFn (List.range n) g).2 i
          (List.mem_range.mpr hi) (by rw [hplen]; exact hi)
          (by rw [hrows i hi]; exact hdlt dim (List.mem_cons_self _ _))
      · refine ih (List.nodup_cons.mp hnd).2 _ _ ?_ ?_ ?_ dim hdim'
        · rw [hf1, hplen]
        · intro i hi
          rw [hf2 i, hrows i hi]
        · intro d hd
          exact hdlt d (List.mem_cons_of_mem _ hd)

theorem getD_replicate_lt {α : Type} (d x : α) {n i : ℕ} (h : i < n) :
    (List.replicate n x).getD i d = x := by
  rw [List.getD_eq_getElem _ _ (by simpa using h)]
  exact List.getElem_replicate _ _

/-- Shape of the sampler output: N rows of D coordinates each. -/
theorem lhc_shape {σ : Type} (M : RngModel σ) (params : OptimizationParameters)
    (g : σ) :
    (latin_hypercube_population M params g).1.length = params.population_size ∧
      ∀ r ∈ (latin_hypercube_population M params g).1,
        r.length = lhcDimension params := by
  unfold latin_hypercube_population
  rcases outerFill_shape M params params.population_size
      (List.range (lhcDimension params))
      (List.replicate params.population_size
        (List.replicate (lhcDimension params) 0)) g with ⟨h1, h2⟩
  have hlen : (outerFill M params params.population_size
      (List.range (lhcDimension params))
      (List.replicate params.population_size
        (List.replicate (lhcDimension params) 0)) g).1.length =
      params.population_size := by
    rw [h1, List.length_replicate]
  refine ⟨hlen, ?_⟩
  intro r hr
  rcases List.mem_iff_getElem.mp hr with ⟨i, hilt, rfl⟩
  have hi : i < params.population_size := by rwa [hlen] at hilt
  rw [← List.getD_eq_getElem _ [] hilt, h2 i,
    getD_replicate_lt [] _ hi, List.length_replicate]

/-- Per-dimension characterization of the sampler output: a permuted
stratum index plus a jitter, scaled into the dimension's interval. -/
theorem lhc_entry {σ : Type} (M : RngModel σ) (hS : ShuffleSpec M)
    (hU : UnitSpec M) (params : OptimizationParameters) (g : σ) (dim : ℕ)
    (hdim : dim < lhcDimension params) :
    ∃ p : List ℕ, p.Perm (List.range params.population_size) ∧
      ∀ i, i < params.population_size → ∃ u : ℚ, 0 ≤ u ∧ u < 1 ∧
        (((latin_hypercube_population M params g).1.getD i []).getD dim 0 =
          params.variable_lower_bounds.getD dim 0 +
            (((p.getD i 0 : ℚ) + u) / (params.population_size : ℚ)) *
              (params.variable_upper_bounds.getD dim 1 -
                params.variable_lower_bounds.getD dim 0)) := by
  unfold latin_hypercube_population
  exact outerFill_entry M hS hU params params.population_size
    (lhcDimension params) (List.range (lhcDimension params))
    (List.nodup_range _)
    (List.replicate params.population_size
      (List.replicate (lhcDimension params) 0)) g
    (List.length_replicate _ _)
    (fun i hi => by rw [getD_replicate_lt [] _ hi, List.length_replicate])
    (fun d hd => List.mem_range.mp hd)
    dim (List.mem_range.mpr hdim)

/-- An element read from a permutation of `range n` is below `n`. -/
theorem perm_range_getD_lt {p : List ℕ} {n : ℕ}
    (hp : p.Perm (List.range n)) {i : ℕ} (hi : i < n) : p.getD i 0 < n := by
  have hplen : p.length = n := by
    rw [hp.length_eq, List.length_range]
  have hmem : p.getD i 0 ∈ p := by
    rw [List.getD_eq_getElem _ _ (by omega)]
    exact List.getElem_mem _
  have := hp.mem_iff.mp hmem
  exact List.mem_range.mp this

theorem map_getD_range {α : Type} (f : ℕ → α) (l : List ℕ) :
    (List.range l.length).map (fun i => f (l.getD i 0)) = l.map f := by
  apply List.ext_getElem
  · simp
  · intro i h1 h2
    have hi : i < l.length := by simpa using h2
    rw [List.getElem_map, List.getElem_map, List.getElem_range,
      List.getD_eq_getElem _ _ hi]

/-- The stratum recovered from a generated coordinate is exactly the
permuted stratum index. -/
theorem floor_stratum {L Uq : ℚ} (h : L < Uq) {N p : ℕ} (hp : p < N) {u : ℚ}
    (hu0 : 0 ≤ u) (hu1 : u < 1) :
    ⌊(L + (((p : ℚ) + u) / (N : ℚ)) * (Uq - L) - L) / (Uq - L) *
      (N : ℚ)⌋ = p := by
  have hUL : Uq - L ≠ 0 := sub_ne_zero.mpr (ne_of_gt h)
  have hN : (N : ℚ) ≠ 0 := Nat.cast_ne_zero.mpr (by omega)
  have h1 : L + (((p : ℚ) + u) / (N : ℚ)) * (Uq - L) - L =
      (((p : ℚ) + u) / (N : ℚ)) * (Uq - L) := by ring
  rw [h1]
  have h2 : (((p : ℚ) + u) / (N : ℚ)) * (Uq - L) / (Uq - L) * (N : ℚ) =
      (p : ℚ) + u := by
    field_simp
    ring
  rw [h2, add_comm, Int.floor_add_nat, Int.floor_eq_zero_iff.mpr ⟨hu0, hu1⟩]
  simp

theorem idRng_shuffle : ShuffleSpec idRng := fun l _ => List.Perm.refl l

theorem idRng_unit : UnitSpec idRng := by
  intro g
  constructor
  · show (0 : ℚ) ≤ 1/2
    norm_num
  · show (1/2 : ℚ) < 1
    norm_num

/-! ## Claim theorems for the sampler -/

/-- C6 (amended with `lower < upper`): for every dimension whose interval
is non-degenerate, mapping each candidate's coordinate fraction `f` to
`⌊f·N⌋` yields each stratum index in `{0,…,N−1}` exactly once, for every
random source satisfying the standard-library contracts. -/
theorem C6_stratification {σ : Type} (M : RngModel σ) (hS : ShuffleSpec M)
    (hU : UnitSpec M) (params : OptimizationParameters) (g : σ)
    (hN : 1 ≤ params.population_size) (dim : ℕ)
    (hdim : dim < lhcDimension params)
    (hlu : params.variable_lower_bounds.getD dim 0 <
      params.variable_upper_bounds.getD dim 1) :
    ((List.range params.population_size).map (fun i =>
        ⌊((((latin_hypercube_population M params g).1.getD i []).getD dim 0 -
            params.variable_lower_bounds.getD dim 0) /
            (params.variable_upper_bounds.getD dim 1 -
              params.variable_lower_bounds.getD dim 0)) *
          (params.population_size : ℚ)⌋)).Perm
      ((List.range params.population_size).map Int.ofNat) := by
  rcases lhc_entry M hS hU params g dim hdim with ⟨p, hp, hpt⟩
  have hplen : p.length = params.population_size := by
    rw [hp.length_eq, List.length_range]
  have hmapeq : (List.range params.population_size).map (fun i =>
      ⌊((((latin_hypercube_population M params g).1.getD i []).getD dim 0 -
          params.variable_lower_bounds.getD dim 0) /
          (params.variable_upper_bounds.getD dim 1 -
            params.variable_lower_bounds.getD dim 0)) *
        (params.population_size : ℚ)⌋) =
      (List.range params.population_size).map (fun i => Int.ofNat (p.getD i 0)) := by
    apply List.map_congr_left
    intro i hi
    have hilt : i < params.population_size := List.mem_range.mp hi
    rcases hpt i hilt with ⟨u, hu0, hu1, hval⟩
    rw [hval]
    have hplt : p.getD i 0 < params.population_size := perm_range_getD_lt hp hilt
    exact floor_stratum hlu hplt hu0 hu1
  rw [hmapeq]
  have h3 : (List.range params.population_size).map
      (fun i => Int.ofNat (p.getD i 0)) = p.map Int.ofNat := by
    rw [← hplen]
    exact map_getD_range _ p
  rw [h3]
  exact hp.map _

/-- The population the trivial source generates for the degenerate
configuration: both coordinates collapse to the common bound 1. -/
theorem degenerate_pop :
    (latin_hypercube_population idRng degenerateParams ()).1 = [[1], [1]] := by
  norm_num [latin_hypercube_population, outerFill, innerFill, idRng,
    degenerateParams, lhcDimension, List.range_succ]
  rfl

/-- C6 counterexample: with the in-contract degenerate bounds
`lower = upper = 1`, stratification fails as the claim states it — the
random source satisfies both contracts, `N ≥ 1`, dimension 0 is sampled,
yet the stratum map is not a permutation of `{0, …, N−1}`. -/
theorem C6_counterexample :
    ShuffleSpec idRng ∧ UnitSpec idRng ∧
      1 ≤ degenerateParams.population_size ∧
      0 < lhcDimension degenerateParams ∧
      ¬ ((List.range degenerateParams.population_size).map (fun i =>
          ⌊((((latin_hypercube_population idRng degenerateParams ()).1.getD i
                []).getD 0 0 -
              degenerateParams.variable_lower_bounds.getD 0 0) /
              (degenerateParams.variable_upper_bounds.getD 0 1 -
                degenerateParams.variable_lower_bounds.getD 0 0)) *
            (degenerateParams.population_size : ℚ)⌋)).Perm
        ((List.range degenerateParams.population_size).map Int.ofNat) := by
  refine ⟨idRng_shuffle, idRng_unit, by decide, by decide, ?_⟩
  intro hperm
  have hcount := hperm.count_eq (Int.ofNat 1)
  rw [degenerate_pop] at hcount
  simp [degenerateParams, List.range_succ] at hcount

/-- C6 witness: two candidates in the default `[0,1)` box. -/
theorem C6_stratification_witness :
    ShuffleSpec idRng ∧ UnitSpec idRng ∧
      1 ≤ unitBoxParams.population_size ∧
      0 < lhcDimension unitBoxParams ∧
      unitBoxParams.variable_lower_bounds.getD 0 0 <
        unitBoxParams.variable_upper_bounds.getD 0 1 ∧
      ((List.range unitBoxParams.population_size).map (fun i =>
          ⌊((((latin_hypercube_population idRng unitBoxParams ()).1.getD i
                []).getD 0 0 -
              unitBoxParams.variable_lower_bounds.getD 0 0) /
              (unitBoxParams.variable_upper_bounds.getD 0 1 -
                unitBoxParams.variable_lower_bounds.getD 0 0)) *
            (unitBoxParams.population_size : ℚ)⌋)).Perm
        ((List.range unitBoxParams.population_size).map Int.ofNat) :=
  ⟨idRng_shuffle, idRng_unit, by decide, by decide, by decide,
    C6_stratification idRng idRng_shuffle idRng_unit unitBoxParams ()
      (by decide) 0 (by decide) (by decide)⟩

/-- C7 (amended with `lower < upper`): every generated coordinate of a
dimension with a non-degenerate interval lies in the half-open interval
`[lower[d], upper[d])`, where missing bound entries default to 0 and 1. -/
theorem C7_bounds {σ : Type} (M : RngModel σ) (hS : ShuffleSpec M)
    (hU : UnitSpec M) (params : OptimizationParameters) (g : σ) (i dim : ℕ)
    (hi : i < params.population_size) (hdim : dim < lhcDimension params)
    (hlu : params.variable_lower_bounds.getD dim 0 <
      params.variable_upper_bounds.getD dim 1) :
    params.variable_lower_bounds.getD dim 0 ≤
        ((latin_hypercube_population M params g).1.getD i []).getD dim 0 ∧
      ((latin_hypercube_population M params g).1.getD i []).getD dim 0 <
        params.variable_upper_bounds.getD dim 1 := by
  rcases lhc_entry M hS hU params g dim hdim with ⟨p, hp, hpt⟩
  rcases hpt i hi with ⟨u, hu0, hu1, hval⟩
  rw [hval]
  have hplt : p.getD i 0 < params.population_size := perm_range_getD_lt hp hi
  have hNpos : (0 : ℚ) < (params.population_size : ℚ) := by
    have h : 0 < params.population_size := by omega
    exact_mod_cast h
  have hp0 : (0 : ℚ) ≤ (p.getD i 0 : ℚ) := by positivity
  have hscaled0 : 0 ≤ ((p.getD i 0 : ℚ) + u) / (params.population_size : ℚ) :=
    div_nonneg (by linarith) (le_of_lt hNpos)
  have hscaled1 : ((p.getD i 0 : ℚ) + u) / (params.population_size : ℚ) < 1 := by
    rw [div_lt_one hNpos]
    have hcast : (p.getD i 0 : ℚ) + 1 ≤ (params.population_size : ℚ) := by
      exact_mod_cast Nat.succ_le_of_lt hplt
    linarith
  constructor
  · have h := mul_nonneg hscaled0
      (by linarith : (0 : ℚ) ≤ params.variable_upper_bounds.getD dim 1 -
        params.variable_lower_bounds.getD dim 0)
    linarith
  · have h := mul_lt_mul_of_pos_right hscaled1
      (by linarith : (0 : ℚ) < params.variable_upper_bounds.getD dim 1 -
        params.variable_lower_bounds.getD dim 0)
    rw [one_mul] at h
    linarith

/-- C7 counterexample: with the in-contract degenerate bounds
`lower = upper = 1`, the generated coordinate equals the common bound and
so does not lie in the (empty) half-open interval `[1, 1)`. -/
theorem C7_counterexample :
    ShuffleSpec idRng ∧ UnitSpec idRng ∧
      0 < degenerateParams.population_size ∧
      0 < lhcDimension degenerateParams ∧
      ¬ (((latin_hypercube_population idRng degenerateParams ()).1.getD 0
            []).getD 0 0 <
          degenerateParams.variable_upper_bounds.getD 0 1) := by
  refine ⟨idRng_shuffle, idRng_unit, by decide, by decide, ?_⟩
  rw [degenerate_pop]
  simp [degenerateParams]

/-- C7 witness: candidate 0, dimension 0 of the default `[0,1)` box. -/
theorem C7_bounds_witness :
    ShuffleSpec idRng ∧ UnitSpec idRng ∧
      0 < unitBoxParams.population_size ∧
      0 < lhcDimension unitBoxParams ∧
      unitBoxParams.variable_lower_bounds.getD 0 0 <
        unitBoxParams.variable_upper_bounds.getD 0 1 ∧
      (unitBoxParams.variable_lower_bounds.getD 0 0 ≤
          ((latin_hypercube_population idRng unitBoxParams ()).1.getD 0
            []).getD 0 0 ∧
        ((latin_hypercube_population idRng unitBoxParams ()).1.getD 0
            []).getD 0 0 <
          unitBoxParams.variable_upper_bounds.getD 0 1) :=
  ⟨idRng_shuffle, idRng_unit, by decide, by decide, by decide,
    C7_bounds idRng idRng_shuffle idRng_unit unitBoxParams () 0 0 (by decide)
      (by decide) (by decide)⟩

/-- The outer loop reads the parameters only through the bounds arrays. -/
theorem outerFill_bounds_only {σ : Type} (M : RngModel σ)
    (p1 p2 : OptimizationParameters) (n : ℕ)
    (h3 : p1.variable_lower_bounds = p2.variable_lower_bounds)
    (h4 : p1.variable_upper_bounds = p2.variable_upper_bounds) :
    ∀ (dims : List ℕ) (pop : Population) (g : σ),
      outerFill M p1 n dims pop g = outerFill M p2 n dims pop g := by
  intro dims
  induction dims with
  | nil => intro pop g; rfl
  | cons dim dims ih =>
      intro pop g
      rw [outerFill_cons, outerFill_cons, h3, h4, ih]

/-- C8: the single-argument overload is deterministic in the parameters:
its output depends only on the population size, the dimension-defining
fields, the bounds and `random_seed` — two calls with equal parameters
(hence equal seeds) return the identical population. -/
theorem C8_seed_determinism {σ : Type} (M : RngModel σ)
    (p1 p2 : OptimizationParameters)
    (h1 : p1.population_size = p2.population_size)
    (h2 : p1.variable_names = p2.variable_names)
    (h3 : p1.variable_lower_bounds = p2.variable_lower_bounds)
    (h4 : p1.variable_upper_bounds = p2.variable_upper_bounds)
    (h5 : p1.random_seed = p2.random_seed) :
    latin_hypercube_population1 M p1 = latin_hypercube_population1 M p2 := by
  have hdim : lhcDimension p1 = lhcDimension p2 := by
    unfold lhcDimension
    rw [h2, h3, h4]
  unfold latin_hypercube_population1 latin_hypercube_population
  rw [h1, h5, hdim, outerFill_bounds_only M p1 p2 p2.population_size h3 h4]

/-- C8 witness: two parameter records that differ in an irrelevant field
(`problem_name`) but agree on everything the sampler reads. -/
theorem C8_seed_determinism_witness :
    ({ problem_name := "a" } : OptimizationParameters).population_size =
        ({ problem_name := "b" } : OptimizationParameters).population_size ∧
      ({ problem_name := "a" } : OptimizationParameters).variable_names =
        ({ problem_name := "b" } : OptimizationParameters).variable_names ∧
      ({ problem_name := "a" } : OptimizationParameters).variable_lower_bounds =
        ({ problem_name := "b" } : OptimizationParameters).variable_lower_bounds ∧
      ({ problem_name := "a" } : OptimizationParameters).variable_upper_bounds =
        ({ problem_name := "b" } : OptimizationParameters).variable_upper_bounds ∧
      ({ problem_name := "a" } : OptimizationParameters).random_seed =
        ({ problem_name := "b" } : OptimizationParameters).random_seed ∧
      latin_hypercube_population1 idRng { problem_name := "a" } =
        latin_hypercube_population1 idRng { problem_name := "b" } :=
  ⟨rfl, rfl, rfl, rfl, rfl,
    C8_seed_determinism idRng { problem_name := "a" } { problem_name := "b" }
      rfl rfl rfl rfl rfl⟩

/-- C10: every candidate produced by the sampler has exactly
`variable_names.size()` coordinates when names are present, otherwise
`max(lower.size(), upper.size())`; the dimensionality is derived from the
parameters alone. -/
theorem C10_dimension {σ : Type} (M : RngModel σ)
    (params : OptimizationParameters) :
    (latin_hypercube_population1 M params).length = params.population_size ∧
      ∀ r ∈ latin_hypercube_population1 M params,
        r.length = (if params.variable_names = [] then
          max params.variable_lower_bounds.length
            params.variable_upper_bounds.length
          else params.variable_names.length) := by
  unfold latin_hypercube_population1
  rcases lhc_shape M params (M.seed params.random_seed) with ⟨h1, h2⟩
  exact ⟨h1, fun r hr => (h2 r hr).trans rfl⟩

/-- C10 witness: dimension 1 (from the single name), not 2 (from the
upper-bounds array). -/
theorem C10_dimension_witness :
    (latin_hypercube_population1 idRng namedDimParams).length =
        namedDimParams.population_size ∧
      ∀ r ∈ latin_hypercube_population1 idRng namedDimParams,
        r.length = (if namedDimParams.variable_names = [] then
          max namedDimParams.variable_lower_bounds.length
            namedDimParams.variable_upper_bounds.length
          else namedDimParams.variable_names.length) :=
  C10_dimension idRng namedDimParams

/-- C9 witness: a concrete two-row matrix with rows of lengths 1 and 2
takes the shape-mismatch error path. -/
theorem C9_shape_error_witness :
    fast_non_dominated_sort [[FpVal.fin 1], [FpVal.fin 1, FpVal.fin 2]] =
      .error shapeErrMsg :=
  (C9_shape_error [[FpVal.fin 1], [FpVal.fin 1, FpVal.fin 2]]).mpr
    ⟨0, 1, by decide, by decide, by decide⟩
